import Mathlib

/-!
# Verification of the MedTech dual-vector storage core

Shallow embedding of the storage/retrieval core of the repository:
`Core/text_processor.py` (chunking policy) and
`Data_Layer/storage_manager.py` (metadata store, vector indices,
ingestion orchestrator, query engine), with theorems checking the
natural-language specification against the embedded code.

Modelling conventions:
* Python strings are `List Char`; Python floats are `ℚ` (exact arithmetic);
  machine `int` is `Int`/`Nat` as appropriate.
* Exceptions are `Except`; a caught exception leaves the functional state
  that was threaded up to the raise point, exactly as the mutable Python
  state is left by `try/except`.
* External capabilities (SHA-256, the embedding models, the FAISS search
  results) are parameters of the theorems, never hard-coded, except for the
  FAISS `add` dimension assertion which is part of the index semantics the
  code relies on (see `faissFlatAdd`).
-/

set_option maxHeartbeats 1000000

/-- Whitespace class used by Python `str.strip` / `str.split` / regex `\s`
on the ASCII range (the code only manipulates ASCII whitespace: every
control character has been replaced by a space before these are applied). -/
def isSpaceChar (c : Char) : Bool :=
  c = ' ' || c = '\t' || c = '\n' || c = '\r' || c.toNat = 11 || c.toNat = 12

/-- Sentence-ending punctuation of the chunker regex `[.!?]`. -/
def isSentencePunct (c : Char) : Bool :=
  c = '.' || c = '!' || c = '?'

/-- `str.strip()`: drop leading and trailing whitespace. -/
def pyStrip (s : List Char) : List Char :=
  ((s.dropWhile isSpaceChar).reverse.dropWhile isSpaceChar).reverse

/-- Length of the maximal whitespace run at the head (the greedy `\s+`). -/
def wsRunLen (s : List Char) : Nat :=
  (s.takeWhile isSpaceChar).length

/-- End positions of the matches of `re.finditer(r'[.!?]\s+', s)`, offset by
`pos`: a match starts at a sentence punctuation mark followed by at least one
whitespace character and ends after the maximal whitespace run.  Scanning
every position is equivalent to the non-overlapping scan of `finditer`
because no match can start strictly inside an earlier match. -/
def matchEnds : List Char → Nat → List Nat
  | [], _ => []
  | c :: rest, pos =>
    if isSentencePunct c = true ∧ 0 < wsRunLen rest then
      (pos + 1 + wsRunLen rest) :: matchEnds rest (pos + 1)
    else
      matchEnds rest (pos + 1)

/-- Python slice `t[s:e]` (for `s ≤ e`; clamped like Python). -/
def sliceList (t : List Char) (s e : Nat) : List Char :=
  (t.drop s).take (e - s)

/-- One window of `TextProcessor.chunk_text`: the chunk text after the
sentence-boundary trim together with its (possibly trimmed) end position.
Mirrors lines 71-86 of `Core/text_processor.py`: take `text[start:end]`
with `end = min(start + chunk_size, len(text))`; if the window does not
reach the end of the text, look for sentence breaks in its last 200
characters and cut at the last one found. -/
def chunkWindow (t : List Char) (size start : Nat) : List Char × Nat :=
  let e0 := min (start + size) t.length
  let chunk := sliceList t start e0
  if e0 < t.length then
    let searchStart := chunk.length - 200
    match (matchEnds (chunk.drop searchStart) 0).getLast? with
    | some b => (chunk.take (searchStart + b), start + (searchStart + b))
    | none => (chunk, e0)
  else (chunk, e0)

/-- End position of the current window after the sentence-boundary trim. -/
def windowEnd (t : List Char) (size start : Nat) : Nat :=
  (chunkWindow t size start).2

/-- Start of the next window: `end - overlap`, bumped to `start + 1`
whenever that would not move forward (lines 96-100 of the source). -/
def nextStart (t : List Char) (size ov start : Nat) : Nat :=
  let e := windowEnd t size start
  if e - ov ≤ start then start + 1 else e - ov

/-- The `while start < len(text)` loop of `chunk_text`, with explicit fuel
(the loop strictly advances `start`, so `t.length + 1` fuel is always
enough; `chunkLoop_fuel_congr` below proves fuel-independence). -/
def chunkLoop (t : List Char) (size ov : Nat) : Nat → Nat → List (List Char × Nat × Nat)
  | 0, _ => []
  | fuel + 1, start =>
    if start < t.length then
      let w := chunkWindow t size start
      let kept := pyStrip w.1
      let here := if kept = [] then [] else [(kept, start, w.2)]
      if t.length ≤ w.2 then here
      else here ++ chunkLoop t size ov fuel (nextStart t size ov start)
    else []

/-- Number of iterations the `while` loop of `chunk_text` executes. -/
def chunkLoopSteps (t : List Char) (size ov : Nat) : Nat → Nat → Nat
  | 0, _ => 0
  | fuel + 1, start =>
    if start < t.length then
      if t.length ≤ windowEnd t size start then 1
      else 1 + chunkLoopSteps t size ov fuel (nextStart t size ov start)
    else 0

/-- `overlap = max(0, min(overlap, chunk_size - 1))` (line 60 of the source). -/
def clampOverlap (chunk_size overlap : Int) : Nat :=
  (max 0 (min overlap (chunk_size - 1))).toNat

/-- `TextProcessor.chunk_text` (lines 39-102 of `Core/text_processor.py`):
raises on `chunk_size <= 0`; returns the whole text as a single chunk when
it fits in one window; otherwise runs the chunking loop. -/
def chunk_text (t : List Char) (chunk_size overlap : Int) :
    Except (List Char) (List (List Char × Nat × Nat)) :=
  if chunk_size ≤ 0 then
    Except.error ("chunk_size must be > 0".toList)
  else if t.length ≤ chunk_size.toNat then
    Except.ok [(t, 0, t.length)]
  else
    Except.ok (chunkLoop t chunk_size.toNat (clampOverlap chunk_size overlap) (t.length + 1) 0)

/-- Loop iteration count of `chunk_text` (0 outside the loop paths). -/
def chunkTextSteps (t : List Char) (chunk_size overlap : Int) : Nat :=
  if chunk_size ≤ 0 then 0
  else if t.length ≤ chunk_size.toNat then 0
  else chunkLoopSteps t chunk_size.toNat (clampOverlap chunk_size overlap) (t.length + 1) 0

/-- `TextProcessor.CHUNK_SIZE_LONG`. -/
def CHUNK_SIZE_LONG : Nat := 1500

/-- `TextProcessor.CHUNK_OVERLAP`. -/
def CHUNK_OVERLAP : Nat := 150

/-- `TextProcessor.should_chunk`: `len(text) > CHUNK_SIZE_LONG`. -/
def should_chunk (t : List Char) : Bool :=
  CHUNK_SIZE_LONG < t.length

/-- `chunk_text` at its default arguments (`chunk_size=1500`, `overlap=150`),
as called by `UnifiedStorageManager.ingest_text`.  The error branch is
unreachable since `1500 > 0`. -/
def chunkTextDefault (t : List Char) : List (List Char × Nat × Nat) :=
  match chunk_text t 1500 150 with
  | Except.ok l => l
  | Except.error _ => []

/-- Replace NUL and every other control character by a space, as
`_normalize_text_for_embedding` does with `text.replace("\x00", " ")`
followed by `re.sub(r"[\x00-\x1f\x7f]", " ", text)`. -/
def stripCtrlChars (t : List Char) : List Char :=
  t.map (fun c => if c.toNat ≤ 31 || c.toNat = 127 then ' ' else c)

/-- Helper for `splitWs`: accumulate the current word (reversed). -/
def splitWsAux : List Char → List Char → List (List Char)
  | [], acc => if acc.isEmpty then [] else [acc.reverse]
  | c :: rest, acc =>
    if isSpaceChar c then
      if acc.isEmpty then splitWsAux rest [] else acc.reverse :: splitWsAux rest []
    else splitWsAux rest (c :: acc)

/-- Python `str.split()`: split on whitespace runs, dropping empty pieces. -/
def splitWs (t : List Char) : List (List Char) :=
  splitWsAux t []

/-- Python `" ".join(words)`. -/
def joinWords (ws : List (List Char)) : List Char :=
  List.intercalate [' '] ws

/-- `_normalize_text_for_embedding` before truncation: control characters
replaced by spaces, then whitespace collapsed by `" ".join(text.split())`. -/
def preNormalize (t : List Char) : List Char :=
  joinWords (splitWs (stripCtrlChars t))

/-- `UnifiedStorageManager._normalize_text_for_embedding(text)` at its
default `max_chars=2000` (lines 497-509 of `Data_Layer/storage_manager.py`). -/
def normalizeText (t : List Char) : List Char :=
  (preNormalize t).take 2000

/-! ## Vector indices (`TextVectorStore` / `VisualVectorStore` over FAISS) -/

/-- A FAISS flat index: a configured dimension and the vectors added so
far, in insertion order (ids are positions, append-only). -/
structure FaissIndex where
  dim : Nat
  vecs : List (List ℚ)
deriving DecidableEq

/-- A NumPy 2-d float matrix of shape `(rows.length, w)`; theorems that
use one assume `∀ r ∈ rows, r.length = w` (NumPy arrays are rectangular). -/
structure Mat where
  w : Nat
  rows : List (List ℚ)
deriving DecidableEq

/-- `faiss.IndexFlat*.add`: the FAISS Python wrapper asserts
`d == self.d` on the input shape before any vector is stored (so a
mismatched call mutates nothing), then appends the vectors; assigned ids
are `[ntotal, ntotal + n)`.  This is library behaviour the repository
relies on; `VisualVectorStore.add` has no check of its own. -/
def faissFlatAdd (ix : FaissIndex) (m : Mat) : Except (List Char) (FaissIndex × List Nat) :=
  if m.w = ix.dim then
    Except.ok ({ ix with vecs := ix.vecs ++ m.rows },
      List.range' ix.vecs.length m.rows.length)
  else
    Except.error ("AssertionError: d == self.d".toList)

/-- `TextVectorStore.add` (lines 322-336 of `Data_Layer/storage_manager.py`):
explicit dimension guard raising `ValueError` on mismatch, then the index
add; returns the assigned ids `[start_id, ntotal)`. -/
def textStoreAdd (ix : FaissIndex) (m : Mat) : Except (List Char) (FaissIndex × List Nat) :=
  if m.w ≠ ix.dim then
    Except.error ("Text embedding dim mismatch".toList)
  else
    faissFlatAdd ix m

/-- `VisualVectorStore.add` (lines 377-385): no explicit guard in the
repository code; the dimension check is the FAISS assertion itself. -/
def visualStoreAdd (ix : FaissIndex) (m : Mat) : Except (List Char) (FaissIndex × List Nat) :=
  faissFlatAdd ix m

/-! ## Metadata store rows (`SQLiteMetadataStore`) -/

/-- JSON-object metadata bag, modelled as an association list;
`json.dumps`/`json.loads` round-trip is modelled as the identity. -/
def MetaVal : Type := List (List Char × List Char)
deriving instance DecidableEq for MetaVal

/-- A row of the `memory_items` table. -/
structure MemoryRow where
  id : Nat
  source : List Char
  content : List Char
  metadata : Option MetaVal
  created_at : List Char
  vector_id : Option Nat
  content_hash : Option (List Char)
deriving DecidableEq

/-- A row of the `chunks` table. -/
structure ChunkRow where
  id : Nat
  memory_item_id : Nat
  chunk_text : List Char
  chunk_index : Nat
  start_pos : Nat
  end_pos : Nat
  vector_id : Option Nat
deriving DecidableEq

/-- A row of the `visual_items` table. -/
structure VisualRow where
  id : Nat
  path : List Char
  ocr_text : Option (List Char)
  metadata : Option MetaVal
  created_at : List Char
  vector_id : Option Nat
  image_hash : Option (List Char)
deriving DecidableEq

/-! ## The unified storage state and ingestion orchestrator -/

/-- Messages printed by `ingest_text` error handling and by the
`_text_embeddings_ready` warning. -/
inductive LogEntry where
  | errorDetail (source sig : List Char)
  | errorSummary (source : List Char)
  | notReadyWarn
deriving DecidableEq

/-- Result of `EmbeddingManager.encode_text` on one string: either a float
vector (with the fact whether `np.isfinite(v).all()` holds carried as a
flag, since `ℚ` cannot represent NaN/Inf), or a raised exception with its
type name and message. -/
inductive EmbedResult where
  | ok (vec : List ℚ) (finite : Bool)
  | exn (ty msg : List Char)

/-- Environment of `UnifiedStorageManager`: the external capabilities the
text-ingestion path consumes.  `ready` is `_text_embeddings_ready()`
(embeddings initialised and dimension-compatible with the loaded index);
`hashFn` is `hashlib.sha256(...).hexdigest()`; `enc` is
`embeddings.encode_text`; `now` is `datetime.now().isoformat()`. -/
structure IngestConfig where
  ready : Bool
  hashFn : List Char → List Char
  enc : List Char → EmbedResult
  now : List Char

/-- Mutable state of `UnifiedStorageManager` touched by text ingestion:
the SQLite tables (in rowid order, with their AUTOINCREMENT counters),
the FAISS text index, the per-key error counters, the printed log, the
number of `encode_text` calls made, and the ready-warning flag. -/
structure StoreState where
  items : List MemoryRow
  chunkRows : List ChunkRow
  nextItemId : Nat
  nextChunkId : Nat
  textIndex : FaissIndex
  errorCounts : List (List Char × Nat)
  log : List LogEntry
  encodeCalls : Nat
  warnShown : Bool
deriving DecidableEq

/-- Look up a counter in `_ingest_error_counts` (0 when absent). -/
def lookupCount (m : List (List Char × Nat)) (k : List Char) : Nat :=
  match m.find? (fun kv => kv.1 = k) with
  | some kv => kv.2
  | none => 0

/-- Set a counter in `_ingest_error_counts` (dict assignment: update in
place, or append a new key). -/
def setCount : List (List Char × Nat) → List Char → Nat → List (List Char × Nat)
  | [], k, n => [(k, n)]
  | kv :: rest, k, n =>
    if kv.1 = k then (k, n) :: rest else kv :: setCount rest k n

/-- `f"{type(e).__name__}:{str(e)[:80]}"`, the part of the error key after
the source. -/
def errSig (ty msg : List Char) : List Char :=
  ty ++ [':'] ++ msg.take 80

/-- The `except` block of `ingest_text` (lines 633-642): bump the counter
for `f"{source}:{type(e).__name__}:{str(e)[:80]}"`, print full detail for
the first 3 occurrences, one suppression notice at the 4th, nothing after. -/
def recordIngestError (st : StoreState) (source sig : List Char) : StoreState :=
  let key := source ++ [':'] ++ sig
  let seen := lookupCount st.errorCounts key + 1
  { st with
    errorCounts := setCount st.errorCounts key seen
    log :=
      if seen ≤ 3 then st.log ++ [LogEntry.errorDetail source sig]
      else if seen = 4 then st.log ++ [LogEntry.errorSummary source]
      else st.log }

/-- `_text_embeddings_ready` when it returns `False`: prints the warning
once and remembers it printed. -/
def markNotReady (st : StoreState) : StoreState :=
  if st.warnShown then st
  else { st with warnShown := true, log := st.log ++ [LogEntry.notReadyWarn] }

/-- `update_memory_item_vector_id` (lines 252-256): `UPDATE memory_items
SET vector_id = ? WHERE id = ?`. -/
def updateMemoryItemVectorId (items : List MemoryRow) (itemId vid : Nat) : List MemoryRow :=
  items.map (fun r => if r.id = itemId then { r with vector_id := some vid } else r)

/-- Message of the `ValueError` raised on a non-finite chunk embedding. -/
def nonFiniteChunkMsg : List Char := "Non-finite values in chunk embedding".toList

/-- Message of the `ValueError` raised on a non-finite full-text embedding. -/
def nonFiniteTextMsg : List Char := "Non-finite values in text embedding".toList

/-- The `type(e).__name__:str(e)[:80]` signature the `except` block of
`ingest_text` records when one `encode_text` call fails: the raised
exception's own signature when the model raises, and the `ValueError` of
the `np.isfinite(...).all()` guard (chunk or full-text message, lines 612
and 624) when the returned vector holds non-finite values; `none` when the
call succeeds with a finite vector. -/
def encFailSig (chunked : Bool) : EmbedResult → Option (List Char)
  | EmbedResult.exn ty msg => some (errSig ty msg)
  | EmbedResult.ok _ false =>
    some (errSig ("ValueError".toList) (if chunked then nonFiniteChunkMsg else nonFiniteTextMsg))
  | EmbedResult.ok _ true => none

/-- The chunked branch of `ingest_text` (lines 605-619): for each chunk in
order, encode it (counting the call), check finiteness, add the vector to
the text store and insert the chunk row; the first failure is caught by
the surrounding `except`, which keeps every mutation made so far and
returns `-1`. -/
def ingestChunks (cfg : IngestConfig) (memoryId : Nat) (source : List Char) :
    StoreState → Nat → List (List Char × Nat × Nat) → StoreState × Int
  | st, _, [] => (st, Int.ofNat memoryId)
  | st, i, (ctext, spos, epos) :: rest =>
    let st1 := { st with encodeCalls := st.encodeCalls + 1 }
    match cfg.enc ctext with
    | EmbedResult.exn ty msg => (recordIngestError st1 source (errSig ty msg), -1)
    | EmbedResult.ok v finite =>
      if finite = false then
        (recordIngestError st1 source (errSig ("ValueError".toList) nonFiniteChunkMsg), -1)
      else
        match textStoreAdd st1.textIndex ⟨v.length, [v]⟩ with
        | Except.error msg =>
          (recordIngestError st1 source (errSig ("ValueError".toList) msg), -1)
        | Except.ok (ix, vids) =>
          let row : ChunkRow :=
            { id := st1.nextChunkId, memory_item_id := memoryId, chunk_text := ctext,
              chunk_index := i, start_pos := spos, end_pos := epos,
              vector_id := some (vids.headD 0) }
          ingestChunks cfg memoryId source
            { st1 with
              textIndex := ix
              chunkRows := st1.chunkRows ++ [row]
              nextChunkId := st1.nextChunkId + 1 } (i + 1) rest

/-- `UnifiedStorageManager.ingest_text` (lines 571-642): bail out with `-1`
when embeddings are unavailable or the normalized text is empty; dedup by
`sha256(source + "|" + normalized)`; otherwise insert the memory item row,
then embed (chunked or whole) inside `try/except`, returning `-1` on any
caught failure and the memory-item id on success. -/
def ingest_text (cfg : IngestConfig) (st : StoreState)
    (text source : List Char) (metadata : Option MetaVal) : StoreState × Int :=
  if cfg.ready = false then (markNotReady st, -1)
  else
    let text1 := normalizeText text
    if text1 = [] then (st, -1)
    else
      let normalized := joinWords (splitWs text1)
      let h := cfg.hashFn (source ++ ['|'] ++ normalized)
      match st.items.find? (fun r => r.content_hash = some h) with
      | some existing => (st, Int.ofNat existing.id)
      | none =>
        let memoryId := st.nextItemId
        let row : MemoryRow :=
          { id := memoryId, source := source, content := text1, metadata := metadata,
            created_at := cfg.now, vector_id := none, content_hash := some h }
        let st1 := { st with items := st.items ++ [row], nextItemId := memoryId + 1 }
        if should_chunk text1 then
          match chunk_text text1 1500 150 with
          | Except.error msg =>
            (recordIngestError st1 source (errSig ("ValueError".toList) msg), -1)
          | Except.ok chunks => ingestChunks cfg memoryId source st1 0 chunks
        else
          let st2 := { st1 with encodeCalls := st1.encodeCalls + 1 }
          match cfg.enc text1 with
          | EmbedResult.exn ty msg => (recordIngestError st2 source (errSig ty msg), -1)
          | EmbedResult.ok v finite =>
            if finite = false then
              (recordIngestError st2 source (errSig ("ValueError".toList) nonFiniteTextMsg), -1)
            else
              match textStoreAdd st2.textIndex ⟨v.length, [v]⟩ with
              | Except.error msg =>
                (recordIngestError st2 source (errSig ("ValueError".toList) msg), -1)
              | Except.ok (ix, vids) =>
                ({ st2 with
                   textIndex := ix
                   items := updateMemoryItemVectorId st2.items memoryId (vids.headD 0) },
                 Int.ofNat memoryId)

/-- A batch of `ingest_text` calls, one per `(text, source)` pair, as the
collectors drive it; returns the final state and every per-item result. -/
def ingest_batch (cfg : IngestConfig) :
    StoreState → List (List Char × List Char) → StoreState × List Int
  | st, [] => (st, [])
  | st, (text, source) :: rest =>
    let r := ingest_text cfg st text source none
    let rr := ingest_batch cfg r.1 rest
    (rr.1, r.2 :: rr.2)

/-! ## Vector-id resolution (`SQLiteMetadataStore.resolve_text_vector_id`) -/

/-- `get_chunk_by_vector_id`: `SELECT * FROM chunks WHERE vector_id = ?
LIMIT 1` (first row in rowid order). -/
def getChunkByVectorId (rows : List ChunkRow) (vid : Nat) : Option ChunkRow :=
  rows.find? (fun c => c.vector_id = some vid)

/-- `get_memory_item_by_vector_id`: first `memory_items` row whose
`vector_id` matches. -/
def getMemoryItemByVectorId (items : List MemoryRow) (vid : Nat) : Option MemoryRow :=
  items.find? (fun r => r.vector_id = some vid)

/-- `get_memory_item`: lookup by primary key. -/
def getMemoryItem (items : List MemoryRow) (itemId : Nat) : Option MemoryRow :=
  items.find? (fun r => r.id = itemId)

/-- What `resolve_text_vector_id` returns: the dict with `text`, `source`,
`metadata`, `created_at`, `memory_item_id` and (chunk case only)
`chunk_index`. -/
structure ResolvedText where
  text : List Char
  source : List Char
  metadata : MetaVal
  created_at : List Char
  chunk_index : Option Nat
  memory_item_id : Option Nat
deriving DecidableEq

/-- `SQLiteMetadataStore.resolve_text_vector_id` (lines 209-250): check the
`chunks` table first and answer from the chunk plus its parent item
(defaults when the parent row is missing); only if no chunk matches, fall
back to `memory_items`; `None` when neither table has the id. -/
def resolve_text_vector_id (st : StoreState) (vid : Nat) : Option ResolvedText :=
  match getChunkByVectorId st.chunkRows vid with
  | some chunk =>
    let parent := getMemoryItem st.items chunk.memory_item_id
    some
      { text := chunk.chunk_text
        source := match parent with
          | some p => p.source
          | none => "unknown".toList
        metadata := match parent with
          | some p => p.metadata.getD []
          | none => []
        created_at := match parent with
          | some p => p.created_at
          | none => []
        chunk_index := some chunk.chunk_index
        memory_item_id := some chunk.memory_item_id }
  | none =>
    match getMemoryItemByVectorId st.items vid with
    | some item =>
      some
        { text := item.content
          source := item.source
          metadata := item.metadata.getD []
          created_at := item.created_at
          chunk_index := none
          memory_item_id := some item.id }
    | none => none

/-! ## Query engine (`UnifiedStorageManager.search`) -/

/-- `score = 1.0 / (1.0 + dist)` — the L2-distance-to-similarity transform
of the text branch of `search` (line 802). -/
def l2_to_score (dist : ℚ) : ℚ :=
  1 / (1 + dist)

/-- One entry of the text-search result list (lines 807-819; the resolved
fields are attached when the two-table lookup succeeds). -/
structure TextCand where
  vector_id : Int
  score : ℚ
  distance : ℚ
  resolved : Option ResolvedText
deriving DecidableEq

/-- The text branch of `search` (lines 799-820): walk the FAISS
`(distance, index)` pairs, skip the `-1` padding slots, convert each L2
distance to `1/(1+d)` and resolve the vector id. -/
def textSearchResults (st : StoreState) : List (ℚ × Int) → List TextCand
  | [] => []
  | (dist, idx) :: rest =>
    if 0 ≤ idx then
      { vector_id := idx, score := l2_to_score dist, distance := dist,
        resolved := resolve_text_vector_id st idx.toNat } :: textSearchResults st rest
    else textSearchResults st rest

/-- `visual_min_score` (line 789). -/
def visualMinScore : ℚ := 28 / 100

/-- `get_visual_item_by_vector_id`: first `visual_items` row whose
`vector_id` matches. -/
def getVisualItemByVectorId (rows : List VisualRow) (vid : Nat) : Option VisualRow :=
  rows.find? (fun r => r.vector_id = some vid)

/-- One entry of the visual-search result list (lines 841-852). -/
structure VisualCand where
  vector_id : Int
  score : ℚ
  path : Option (List Char)
  text : Option (List Char)
  metadata : Option MetaVal
deriving DecidableEq

/-- `f"vector:{idx}"` — the fallback dedup key when the id resolves to no
stored path. -/
def vectorKey (idx : Int) : List Char :=
  "vector:".toList ++ (Nat.toDigits 10 idx.toNat)

/-- The dedup key of one visual hit: the resolved non-empty path if the
vector id maps to a `visual_items` row with one, else `f"vector:{idx}"`. -/
def visualPathKey (rows : List VisualRow) (idx : Int) : List Char :=
  match getVisualItemByVectorId rows idx.toNat with
  | some item => if item.path ≠ [] then item.path else vectorKey idx
  | none => vectorKey idx

/-- The candidate dict built for one visual hit. -/
def visualCandOf (rows : List VisualRow) (score : ℚ) (idx : Int) : VisualCand :=
  match getVisualItemByVectorId rows idx.toNat with
  | some item =>
    { vector_id := idx, score := score, path := some item.path,
      text := some (item.ocr_text.getD []), metadata := some (item.metadata.getD []) }
  | none =>
    { vector_id := idx, score := score, path := none, text := none, metadata := none }

/-- One iteration of the `best_by_path` loop (lines 831-855): skip `-1`
padding and scores below the floor; then keep the candidate under its path
key if the key is new or the score strictly improves on the stored one.
Python dict semantics: an updated key keeps its position, a new key is
appended. -/
def visualStep (rows : List VisualRow) (best : List (List Char × VisualCand))
    (p : ℚ × Int) : List (List Char × VisualCand) :=
  if 0 ≤ p.2 then
    if p.1 < visualMinScore then best
    else
      let key := visualPathKey rows p.2
      let cand := visualCandOf rows p.1 p.2
      match best.find? (fun kv => kv.1 = key) with
      | none => best ++ [(key, cand)]
      | some kv =>
        if kv.2.score < p.1 then
          best.map (fun kv2 => if kv2.1 = key then (key, cand) else kv2)
        else best
  else best

/-- `best_by_path` after the whole loop over the FAISS `(score, index)`
pairs. -/
def visualBestByPath (rows : List VisualRow) (pairs : List (ℚ × Int)) :
    List (List Char × VisualCand) :=
  pairs.foldl (visualStep rows) []

/-- The visual branch of `search` (lines 823-857): the values of
`best_by_path`, in insertion order, as extended onto the result list. -/
def visualSearchResults (rows : List VisualRow) (pairs : List (ℚ × Int)) :
    List VisualCand :=
  (visualBestByPath rows pairs).map (fun kv => kv.2)

/-! ## Generic helpers for the theorems -/

/-- A fresh store state over a text index of dimension `dim`, as built by
`UnifiedStorageManager.__init__` on an empty data directory. -/
def initState (dim : Nat) : StoreState :=
  { items := [], chunkRows := [], nextItemId := 1, nextChunkId := 1,
    textIndex := { dim := dim, vecs := [] }, errorCounts := [], log := [],
    encodeCalls := 0, warnShown := false }

/-! ## Claim C8 — score transform of text search -/

/-- Claim C8: every text-search result carries `score = 1/(1+distance)`;
for non-negative distances this transform is strictly positive, at most 1,
antitone, and strictly antitone, so a smaller raw distance always yields a
higher (or equal) returned score. -/
theorem score_transform_spec :
    (∀ (st : StoreState) (pairs : List (ℚ × Int)) (r : TextCand),
        r ∈ textSearchResults st pairs → r.score = l2_to_score r.distance) ∧
    (∀ d : ℚ, 0 ≤ d → 0 < l2_to_score d ∧ l2_to_score d ≤ 1) ∧
    (∀ d1 d2 : ℚ, 0 ≤ d1 → d1 ≤ d2 → l2_to_score d2 ≤ l2_to_score d1) ∧
    (∀ d1 d2 : ℚ, 0 ≤ d1 → d1 < d2 → l2_to_score d2 < l2_to_score d1) := by
  refine ⟨?_, ?_, ?_, ?_⟩
  · intro st pairs
    induction pairs with
    | nil => intro r hr; simp [textSearchResults] at hr
    | cons p rest ih =>
      intro r hr
      obtain ⟨dist, idx⟩ := p
      by_cases h : 0 ≤ idx
      · simp only [textSearchResults, if_pos h, List.mem_cons] at hr
        rcases hr with hr | hr
        · subst hr; rfl
        · exact ih r hr
      · simp only [textSearchResults, if_neg h] at hr
        exact ih r hr
  · intro d hd
    constructor
    · have : (0 : ℚ) < 1 + d := by linarith
      exact one_div_pos.mpr this
    · rw [l2_to_score, div_le_one (by linarith)]
      linarith
  · intro d1 d2 h1 h12
    exact one_div_le_one_div_of_le (by linarith) (by linarith)
  · intro d1 d2 h1 h12
    exact one_div_lt_one_div_of_lt (by linarith) (by linarith)

/-- Witness for C8 at concrete inputs: distances 2 and 7 on a result list
with one valid hit. -/
theorem score_transform_spec_witness :
    (∀ r ∈ textSearchResults (initState 4) [((2 : ℚ), (0 : Int))],
        r.score = l2_to_score r.distance) ∧
    (0 < l2_to_score 2 ∧ l2_to_score 2 ≤ 1) ∧
    l2_to_score 7 ≤ l2_to_score 2 ∧ l2_to_score 7 < l2_to_score 2 :=
  ⟨fun r hr => score_transform_spec.1 (initState 4) [((2 : ℚ), (0 : Int))] r hr,
   score_transform_spec.2.1 2 (by norm_num),
   score_transform_spec.2.2.1 2 7 (by norm_num) (by norm_num),
   score_transform_spec.2.2.2 2 7 (by norm_num) (by norm_num)⟩

/-! ## Claim C2 — dimension guard on `add` -/

/-- Claim C2: adding a (rectangular) matrix whose per-vector width differs
from the configured dimension fails with a dimension-mismatch error on both
the text store (its own `ValueError`) and the visual store (the FAISS
`d == self.d` assertion); since `add` returns no new index in that case,
the caller's index — count and stored vectors — is unchanged. -/
theorem vector_add_dimension_guard_spec (ix : FaissIndex) (m : Mat)
    (hrect : ∀ r ∈ m.rows, r.length = m.w) (hw : m.w ≠ ix.dim) :
    (∃ e1, textStoreAdd ix m = Except.error e1) ∧
    (∃ e2, visualStoreAdd ix m = Except.error e2) := by
  constructor
  · refine ⟨"Text embedding dim mismatch".toList, ?_⟩
    simp [textStoreAdd, hw]
  · refine ⟨"AssertionError: d == self.d".toList, ?_⟩
    simp [visualStoreAdd, faissFlatAdd, hw]

/-- Witness for C2: a 3-wide row against 4-dimensional indices. -/
theorem vector_add_dimension_guard_spec_witness :
    (∀ r ∈ (Mat.mk 3 [[0, 0, 0]]).rows, r.length = (Mat.mk 3 [[0, 0, 0]]).w) ∧
    (Mat.mk 3 [[(0 : ℚ), 0, 0]]).w ≠ (FaissIndex.mk 4 []).dim ∧
    (∃ e1, textStoreAdd (FaissIndex.mk 4 []) (Mat.mk 3 [[0, 0, 0]]) = Except.error e1) ∧
    (∃ e2, visualStoreAdd (FaissIndex.mk 4 []) (Mat.mk 3 [[0, 0, 0]]) = Except.error e2) :=
  ⟨by decide, by decide,
   vector_add_dimension_guard_spec (FaissIndex.mk 4 []) (Mat.mk 3 [[0, 0, 0]])
     (by decide) (by decide)⟩

/-! ## Claim C10 — empty input and unavailable embeddings -/

/-- Claim C10: when text embeddings are unavailable (uninitialised or
dimension-incompatible, i.e. `_text_embeddings_ready()` is false) or the
normalized text is empty, `ingest_text` returns the sentinel `-1` without
raising, adds no metadata row, no chunk row, no vector, and performs no
embedding call. -/
theorem ingest_empty_or_unready_spec (cfg : IngestConfig) (st : StoreState)
    (text source : List Char) (md : Option MetaVal)
    (h : cfg.ready = false ∨ normalizeText text = []) :
    (ingest_text cfg st text source md).2 = -1 ∧
    (ingest_text cfg st text source md).1.items = st.items ∧
    (ingest_text cfg st text source md).1.chunkRows = st.chunkRows ∧
    (ingest_text cfg st text source md).1.textIndex = st.textIndex ∧
    (ingest_text cfg st text source md).1.encodeCalls = st.encodeCalls := by
  by_cases hr : cfg.ready = false
  · have hres : ingest_text cfg st text source md = (markNotReady st, -1) := by
      simp [ingest_text, hr]
    rw [hres]
    unfold markNotReady
    split <;> exact ⟨rfl, rfl, rfl, rfl, rfl⟩
  · have hempty : normalizeText text = [] := h.resolve_left hr
    have hres : ingest_text cfg st text source md = (st, -1) := by
      simp [ingest_text, hr, hempty]
    rw [hres]
    exact ⟨rfl, rfl, rfl, rfl, rfl⟩

/-- Witness for C10: a not-ready manager, and a ready manager fed an
all-whitespace text. -/
theorem ingest_empty_or_unready_spec_witness :
    ((IngestConfig.mk false id (fun _ => EmbedResult.ok [] true) []).ready = false ∨
      normalizeText "hello".toList = []) ∧
    (ingest_text (IngestConfig.mk false id (fun _ => EmbedResult.ok [] true) [])
      (initState 4) "hello".toList "test".toList none).2 = -1 ∧
    ((IngestConfig.mk true id (fun _ => EmbedResult.ok [] true) []).ready = false ∨
      normalizeText "  \t ".toList = []) ∧
    (ingest_text (IngestConfig.mk true id (fun _ => EmbedResult.ok [] true) [])
      (initState 4) "  \t ".toList "test".toList none).1.items = (initState 4).items :=
  ⟨Or.inl rfl,
   (ingest_empty_or_unready_spec _ (initState 4) _ _ none (Or.inl rfl)).1,
   Or.inr (by decide),
   (ingest_empty_or_unready_spec _ (initState 4) _ _ none (Or.inr (by decide))).2.1⟩

/-! ## Claim C6 — two-table resolution order -/

/-- Claim C6: `resolve_text_vector_id` answers from the `chunks` table
when any chunk carries the vector id — returning that (first) chunk's text
together with the parent item's source/metadata/created_at — and falls back
to `memory_items` only when no chunk matches; when neither table has the
id it returns `None`. -/
theorem resolve_two_table_order_spec (st : StoreState) (vid : Nat) :
    ((∃ c ∈ st.chunkRows, c.vector_id = some vid) →
      ∃ c, getChunkByVectorId st.chunkRows vid = some c ∧ c.vector_id = some vid ∧
        ∃ res, resolve_text_vector_id st vid = some res ∧
          res.text = c.chunk_text ∧ res.chunk_index = some c.chunk_index ∧
          ∀ p, getMemoryItem st.items c.memory_item_id = some p →
            res.source = p.source ∧ res.created_at = p.created_at ∧
            res.metadata = p.metadata.getD []) ∧
    ((∀ c ∈ st.chunkRows, c.vector_id ≠ some vid) →
      ∀ item, getMemoryItemByVectorId st.items vid = some item →
        ∃ res, resolve_text_vector_id st vid = some res ∧
          res.text = item.content ∧ res.source = item.source ∧
          res.created_at = item.created_at ∧ res.chunk_index = none) ∧
    ((∀ c ∈ st.chunkRows, c.vector_id ≠ some vid) →
      (∀ r ∈ st.items, r.vector_id ≠ some vid) →
      resolve_text_vector_id st vid = none) := by
  refine ⟨?_, ?_, ?_⟩
  · intro hex
    have hsome : (st.chunkRows.find? (fun c => c.vector_id = some vid)).isSome := by
      rw [List.find?_isSome]
      obtain ⟨c, hc, hcv⟩ := hex
      exact ⟨c, hc, by simp [hcv]⟩
    obtain ⟨c, hc⟩ := Option.isSome_iff_exists.mp hsome
    have hcv : c.vector_id = some vid := by
      have := List.find?_some hc
      simpa using this
    refine ⟨c, hc, hcv, ?_⟩
    unfold resolve_text_vector_id
    rw [show getChunkByVectorId st.chunkRows vid = some c from hc]
    refine ⟨_, rfl, rfl, rfl, ?_⟩
    intro p hp
    rw [hp]
    exact ⟨rfl, rfl, rfl⟩
  · intro hnone item hitem
    have hfnone : getChunkByVectorId st.chunkRows vid = none := by
      unfold getChunkByVectorId
      rw [List.find?_eq_none]
      intro c hc
      simpa using hnone c hc
    unfold resolve_text_vector_id
    rw [hfnone, hitem]
    exact ⟨_, rfl, rfl, rfl, rfl, rfl⟩
  · intro hnochunk hnoitem
    have hfnone : getChunkByVectorId st.chunkRows vid = none := by
      unfold getChunkByVectorId
      rw [List.find?_eq_none]
      intro c hc
      simpa using hnochunk c hc
    have hinone : getMemoryItemByVectorId st.items vid = none := by
      unfold getMemoryItemByVectorId
      rw [List.find?_eq_none]
      intro r hr
      simpa using hnoitem r hr
    unfold resolve_text_vector_id
    rw [hfnone, hinone]

/-- Witness for C6: a store holding one chunk (vector id 7) whose parent
is item 1, and one unchunked item (vector id 9). -/
theorem resolve_two_table_order_spec_witness :
    (∃ c ∈ [ChunkRow.mk 1 1 ['x'] 0 0 1 (some 7)], c.vector_id = some 7) ∧
    (∃ res, resolve_text_vector_id
        { initState 4 with
          items := [MemoryRow.mk 1 ['s'] ['x'] none ['d'] none none]
          chunkRows := [ChunkRow.mk 1 1 ['x'] 0 0 1 (some 7)] } 7 = some res ∧
      res.text = ['x']) := by
  constructor
  · exact ⟨ChunkRow.mk 1 1 ['x'] 0 0 1 (some 7), by decide, rfl⟩
  · obtain ⟨c, hc, hcv, res, hres, htext, hrest⟩ :=
      (resolve_two_table_order_spec
        { initState 4 with
          items := [MemoryRow.mk 1 ['s'] ['x'] none ['d'] none none]
          chunkRows := [ChunkRow.mk 1 1 ['x'] 0 0 1 (some 7)] } 7).1
        ⟨ChunkRow.mk 1 1 ['x'] 0 0 1 (some 7), by decide, rfl⟩
    have hcx : c = ChunkRow.mk 1 1 ['x'] 0 0 1 (some 7) := by
      have := List.mem_of_find?_eq_some hc
      simpa using this
    exact ⟨res, hres, by rw [htext, hcx]⟩

/-! ## Chunking lemmas (claims C3, C4) -/

/-- Every reported match end lies strictly past its start offset and inside
the scanned segment. -/
theorem matchEnds_bounds {s : List Char} {pos b : Nat} (h : b ∈ matchEnds s pos) :
    pos < b ∧ b ≤ pos + s.length := by
  induction s generalizing pos with
  | nil => simp [matchEnds] at h
  | cons c rest ih =>
    rw [matchEnds] at h
    have hws : wsRunLen rest ≤ rest.length := (List.takeWhile_sublist isSpaceChar).length_le
    by_cases hc : isSentencePunct c = true ∧ 0 < wsRunLen rest
    · rw [if_pos hc] at h
      rcases List.mem_cons.mp h with h | h
      · subst h
        refine ⟨by omega, ?_⟩
        simp only [List.length_cons]
        omega
      · have := ih h
        simp only [List.length_cons]
        omega
    · rw [if_neg hc] at h
      have := ih h
      simp only [List.length_cons]
      omega

/-- `str.strip()` returns the empty string iff the input is all whitespace. -/
theorem pyStrip_eq_nil_iff {l : List Char} :
    pyStrip l = [] ↔ ∀ c ∈ l, isSpaceChar c = true := by
  unfold pyStrip
  rw [List.reverse_eq_nil_iff, List.dropWhile_eq_nil_iff]
  constructor
  · intro h c hc
    have hsplit := List.takeWhile_append_dropWhile isSpaceChar l
    rw [← hsplit] at hc
    rcases List.mem_append.mp hc with h1 | h1
    · exact List.mem_takeWhile_imp h1
    · exact h c (by rwa [List.mem_reverse])
  · intro h c hc
    rw [List.mem_reverse] at hc
    exact h c ((List.dropWhile_sublist isSpaceChar).subset hc)

/-- Indexing into a Python slice hits the original string. -/
theorem sliceList_getElem? (t : List Char) (s e i : Nat)
    (h1 : s ≤ i) (h2 : i < e) (h3 : e ≤ t.length) :
    (sliceList t s e)[i - s]? = t[i]? := by
  unfold sliceList
  rw [List.getElem?_take, if_pos (by omega), List.getElem?_drop]
  congr 1
  omega

set_option maxRecDepth 4000 in
/-- The slice `t[start:end]` determined by a window is what the trimmed
chunk text is: `chunk[:break_pos] = text[start:start + break_pos]`. -/
theorem chunkWindow_fst (t : List Char) (size start : Nat) :
    (chunkWindow t size start).1 = sliceList t start (chunkWindow t size start).2 := by
  simp only [chunkWindow]
  split
  · split
    · rename_i hcond hscrut b heq
      dsimp only
      have hb := matchEnds_bounds (List.mem_of_mem_getLast? heq)
      rw [List.length_drop] at hb
      have hsl : (sliceList t start ((start + size) ⊓ t.length)).length
          = (start + size) ⊓ t.length - start := by
        unfold sliceList
        rw [List.length_take, List.length_drop]
        omega
      rw [hsl] at hb
      simp only [hsl]
      unfold sliceList
      rw [List.take_take]
      congr 1
      omega
    · rfl
  · rfl

set_option maxRecDepth 4000 in
/-- The (possibly trimmed) window end never runs past the text. -/
theorem windowEnd_le (t : List Char) (size start : Nat) :
    windowEnd t size start ≤ t.length := by
  unfold windowEnd
  simp only [chunkWindow]
  split
  · split
    · rename_i hcond hscrut b heq
      dsimp only
      have hb := matchEnds_bounds (List.mem_of_mem_getLast? heq)
      rw [List.length_drop] at hb
      have hsl : (sliceList t start ((start + size) ⊓ t.length)).length
          = (start + size) ⊓ t.length - start := by
        unfold sliceList
        rw [List.length_take, List.length_drop]
        omega
      rw [hsl] at hb
      rw [hsl]
      omega
    · dsimp only
      omega
  · dsimp only
    omega

set_option maxRecDepth 4000 in
/-- Inside the text and with a positive chunk size, every window ends
strictly after its start. -/
theorem windowEnd_gt (t : List Char) (size start : Nat)
    (hs : 0 < size) (hstart : start < t.length) :
    start < windowEnd t size start := by
  unfold windowEnd
  simp only [chunkWindow]
  split
  · split
    · rename_i hcond hscrut b heq
      dsimp only
      have hb := matchEnds_bounds (List.mem_of_mem_getLast? heq)
      omega
    · dsimp only
      omega
  · dsimp only
    omega

/-- Forward progress: the next window start strictly exceeds the current. -/
theorem nextStart_gt (t : List Char) (size ov start : Nat) :
    start < nextStart t size ov start := by
  unfold nextStart
  dsimp only
  split
  · omega
  · omega

/-- The next window start never runs past the current window end. -/
theorem nextStart_le_windowEnd (t : List Char) (size ov start : Nat)
    (h : start < windowEnd t size start) :
    nextStart t size ov start ≤ windowEnd t size start := by
  unfold nextStart
  dsimp only
  split
  · omega
  · omega

/-- Unfolding of one executed iteration of the chunking loop. -/
theorem chunkLoop_succ (t : List Char) (size ov fuel start : Nat)
    (h : start < t.length) :
    chunkLoop t size ov (fuel + 1) start =
      (if pyStrip (sliceList t start (windowEnd t size start)) = [] then []
       else [(pyStrip (sliceList t start (windowEnd t size start)), start,
         windowEnd t size start)]) ++
      (if t.length ≤ windowEnd t size start then []
       else chunkLoop t size ov fuel (nextStart t size ov start)) := by
  rw [chunkLoop, if_pos h]
  dsimp only
  rw [chunkWindow_fst t size start]
  unfold windowEnd
  split
  · simp
  · rfl

/-- The loop does not run once `start` has reached the end of the text. -/
theorem chunkLoop_stop (t : List Char) (size ov fuel start : Nat)
    (h : ¬ start < t.length) :
    chunkLoop t size ov (fuel + 1) start = [] := by
  rw [chunkLoop, if_neg h]

/-- Relation between `getD` and `getElem?` used by the coverage proof. -/
theorem getD_of_getElem? {t : List Char} {i : Nat} {c : Char}
    (h : t[i]? = some c) : t.getD i ' ' = c := by
  unfold List.getD
  rw [List.get?_eq_getElem?, h]
  rfl

/-- Invariant of the chunking loop: every emitted chunk is the stripped,
non-empty slice of its recorded span, spans stay inside the text and after
the running start; every text position from the running start on is either
inside some emitted span or holds a whitespace character (positions are
lost only to discarded all-whitespace windows); and spans are emitted with
strictly increasing starts. -/
theorem chunkLoop_invariant (t : List Char) (size ov : Nat) (hs : 0 < size) :
    ∀ fuel start, t.length - start < fuel →
      (∀ cse ∈ chunkLoop t size ov fuel start,
          cse.1 = pyStrip (sliceList t cse.2.1 cse.2.2) ∧ cse.1 ≠ [] ∧
          start ≤ cse.2.1 ∧ cse.2.1 < cse.2.2 ∧ cse.2.2 ≤ t.length) ∧
      (∀ i, start ≤ i → i < t.length →
          (∃ cse ∈ chunkLoop t size ov fuel start, cse.2.1 ≤ i ∧ i < cse.2.2) ∨
          isSpaceChar (t.getD i ' ') = true) ∧
      List.Pairwise (fun a b => a.2.1 < b.2.1) (chunkLoop t size ov fuel start) := by
  intro fuel
  induction fuel with
  | zero =>
    intro start h
    omega
  | succ n ih =>
    intro start hfuel
    by_cases hstart : start < t.length
    case neg =>
      rw [chunkLoop_stop t size ov n start hstart]
      refine ⟨by simp, ?_, by simp⟩
      intro i hi1 hi2
      omega
    case pos =>
      have hE1 : start < windowEnd t size start := windowEnd_gt t size start hs hstart
      have hE2 : windowEnd t size start ≤ t.length := windowEnd_le t size start
      have hns1 : start < nextStart t size ov start := nextStart_gt t size ov start
      have hns2 : nextStart t size ov start ≤ windowEnd t size start :=
        nextStart_le_windowEnd t size ov start hE1
      rw [chunkLoop_succ t size ov n start hstart]
      have hmemH : ∀ cse ∈ (if pyStrip (sliceList t start (windowEnd t size start)) = []
          then ([] : List (List Char × Nat × Nat))
          else [(pyStrip (sliceList t start (windowEnd t size start)), start,
            windowEnd t size start)]),
          cse = (pyStrip (sliceList t start (windowEnd t size start)), start,
            windowEnd t size start) ∧
          pyStrip (sliceList t start (windowEnd t size start)) ≠ [] := by
        intro cse hcse
        split at hcse
        · simp at hcse
        · rename_i hk
          simp only [List.mem_singleton] at hcse
          exact ⟨hcse, hk⟩
      have hmemR : ∀ cse ∈ (if t.length ≤ windowEnd t size start
          then ([] : List (List Char × Nat × Nat))
          else chunkLoop t size ov n (nextStart t size ov start)),
          ¬ t.length ≤ windowEnd t size start ∧
          cse ∈ chunkLoop t size ov n (nextStart t size ov start) := by
        intro cse hcse
        split at hcse
        · simp at hcse
        · rename_i he
          exact ⟨he, hcse⟩
      have hihfuel : ¬ t.length ≤ windowEnd t size start →
          t.length - nextStart t size ov start < n := by
        intro _
        omega
      refine ⟨?_, ?_, ?_⟩
      · intro cse hcse
        rcases List.mem_append.mp hcse with hin | hin
        · obtain ⟨hcse2, hk⟩ := hmemH cse hin
          subst hcse2
          exact ⟨rfl, hk, le_refl start, hE1, hE2⟩
        · obtain ⟨he, hin2⟩ := hmemR cse hin
          have := (ih (nextStart t size ov start) (hihfuel he)).1 cse hin2
          exact ⟨this.1, this.2.1, by omega, this.2.2.2⟩
      · intro i hi1 hi2
        by_cases hiE : i < windowEnd t size start
        · by_cases hk : pyStrip (sliceList t start (windowEnd t size start)) = []
          · right
            have hall := pyStrip_eq_nil_iff.mp hk
            have hidx : (sliceList t start (windowEnd t size start))[i - start]? = t[i]? :=
              sliceList_getElem? t start (windowEnd t size start) i hi1 hiE hE2
            have hsome : t[i]? = some (t.getD i ' ') := by
              rw [List.getElem?_eq_getElem hi2]
              rw [getD_of_getElem? (List.getElem?_eq_getElem hi2)]
            have hmem : t.getD i ' ' ∈ sliceList t start (windowEnd t size start) := by
              apply List.getElem?_mem
              rw [hidx, hsome]
            exact hall _ hmem
          · left
            refine ⟨(pyStrip (sliceList t start (windowEnd t size start)), start,
              windowEnd t size start), ?_, hi1, hiE⟩
            apply List.mem_append.mpr
            left
            rw [if_neg hk]
            exact List.mem_singleton.mpr rfl
        · have he : ¬ t.length ≤ windowEnd t size start := by omega
          have hcov := (ih (nextStart t size ov start) (hihfuel he)).2.1 i (by omega) hi2
          rcases hcov with ⟨cse, hm, hc1, hc2⟩ | hws
          · left
            refine ⟨cse, ?_, hc1, hc2⟩
            apply List.mem_append.mpr
            right
            rw [if_neg he]
            exact hm
          · right
            exact hws
      · rw [List.pairwise_append]
        refine ⟨?_, ?_, ?_⟩
        · split
          · exact List.Pairwise.nil
          · exact List.pairwise_singleton _ _
        · split
          · exact List.Pairwise.nil
          · rename_i he
            exact (ih (nextStart t size ov start) (hihfuel he)).2.2
        · intro a ha b hb
          obtain ⟨ha2, _⟩ := hmemH a ha
          obtain ⟨he, hb2⟩ := hmemR b hb
          have hbs := ((ih (nextStart t size ov start) (hihfuel he)).1 b hb2).2.2.1
          rw [ha2]
          dsimp only
          omega

/-- The loop executes at most `len(text) - start` iterations: each one
strictly advances `start`. -/
theorem chunkLoopSteps_le (t : List Char) (size ov : Nat) :
    ∀ fuel start, chunkLoopSteps t size ov fuel start ≤ t.length - start := by
  intro fuel
  induction fuel with
  | zero =>
    intro start
    rw [chunkLoopSteps]
    omega
  | succ n ih =>
    intro start
    rw [chunkLoopSteps]
    split
    · split
      · omega
      · have h1 := ih (nextStart t size ov start)
        have h2 := nextStart_gt t size ov start
        omega
    · omega

/-- Termination of `chunk_text`: the loop value is independent of the fuel
once the fuel exceeds the remaining length. -/
theorem chunkLoop_fuel_congr (t : List Char) (size ov : Nat) :
    ∀ f1 f2 start, t.length - start < f1 → t.length - start < f2 →
      chunkLoop t size ov f1 start = chunkLoop t size ov f2 start := by
  intro f1
  induction f1 with
  | zero =>
    intro f2 start h1 h2
    exact absurd h1 (by omega)
  | succ n ih =>
    intro f2 start h1 h2
    cases f2 with
    | zero => exact absurd h2 (by omega)
    | succ m =>
      by_cases hstart : start < t.length
      · rw [chunkLoop_succ t size ov n start hstart,
          chunkLoop_succ t size ov m start hstart]
        by_cases he : t.length ≤ windowEnd t size start
        · rw [if_pos he, if_pos he]
        · rw [if_neg he, if_neg he]
          congr 1
          have := nextStart_gt t size ov start
          exact ih m (nextStart t size ov start) (by omega) (by omega)
      · rw [chunkLoop_stop t size ov n start hstart,
          chunkLoop_stop t size ov m start hstart]

/-- No sentence-punctuation match exists in a run of `'a'`s. -/
theorem matchEnds_replicate (k pos : Nat) :
    matchEnds (List.replicate k 'a') pos = [] := by
  induction k generalizing pos with
  | zero => rfl
  | succ m ih =>
    rw [List.replicate_succ, matchEnds, if_neg]
    · exact ih (pos + 1)
    · intro hc
      exact absurd hc.1 (by decide)

set_option maxRecDepth 4000 in
/-- On an all-`'a'` text the sentence trim never fires, so the window ends
at `min(start + size, len)`. -/
theorem windowEnd_replicate (m size start : Nat) :
    windowEnd (List.replicate m 'a') size start = min (start + size) m := by
  have key : ∀ d s e, List.drop d (sliceList (List.replicate m 'a') s e) =
      List.replicate (min (e - s) (m - s) - d) 'a' := by
    intro d s e
    unfold sliceList
    rw [List.drop_replicate, List.take_replicate, List.drop_replicate]
  unfold windowEnd
  simp only [chunkWindow, List.length_replicate]
  split
  · split
    · rename_i hcond hscrut b heq
      rw [key, matchEnds_replicate] at heq
      simp at heq
    · rfl
  · rfl

/-- On `2n` copies of `'a'` with `chunk_size = n` and `overlap = n - 1`
the loop advances one character per iteration: `k + 1` iterations remain
from start `n - k`. -/
theorem chunkLoopSteps_replicate (n : Nat) (hn : 0 < n) :
    ∀ k s fuel, s + k = n → k < fuel →
      chunkLoopSteps (List.replicate (2 * n) 'a') n (n - 1) fuel s = k + 1 := by
  intro k
  induction k with
  | zero =>
    intro s fuel hs hf
    cases fuel with
    | zero => exact absurd hf (by omega)
    | succ f =>
      rw [chunkLoopSteps]
      simp only [List.length_replicate, windowEnd_replicate]
      rw [if_pos (by omega), if_pos (by omega)]
  | succ k ih =>
    intro s fuel hs hf
    cases fuel with
    | zero => exact absurd hf (by omega)
    | succ f =>
      have hns : nextStart (List.replicate (2 * n) 'a') n (n - 1) s = s + 1 := by
        unfold nextStart
        rw [windowEnd_replicate]
        dsimp only
        rw [if_neg (by omega)]
        omega
      rw [chunkLoopSteps]
      simp only [List.length_replicate, windowEnd_replicate]
      rw [if_pos (by omega), if_neg (by omega), hns,
        ih (s + 1) f (by omega) (by omega)]
      omega

/-! ## Claim C4 — forward progress and termination -/

/-- On the all-`'a'` family the iteration count of `chunk_text` at
`chunk_size = n`, `overlap = n - 1` is exactly `n + 1`. -/
theorem chunkTextSteps_replicate (n : Nat) (hn : 0 < n) :
    chunkTextSteps (List.replicate (2 * n) 'a') (n : Int) ((n : Int) - 1) = n + 1 := by
  have htoNat : ((n : Int)).toNat = n := by omega
  have hclamp : clampOverlap (n : Int) ((n : Int) - 1) = n - 1 := by
    unfold clampOverlap
    omega
  unfold chunkTextSteps
  rw [if_neg (by omega), hclamp, htoNat]
  rw [if_neg (by simp only [List.length_replicate]; omega)]
  simp only [List.length_replicate]
  exact chunkLoopSteps_replicate n hn n 0 (2 * n + 1) (by omega) (by omega)

/-- Counterexample to C4 as stated: the iteration count of `chunk_text` is
not `O(len(text)/size)` — no constants `C1, C2` bound the step count by
`C1 * (len/size) + C2` over all inputs, because with `overlap = size - 1`
(kept verbatim by the clamp) the loop advances a single character per
iteration: on `2n` characters with `size = n` it runs `n + 1` iterations
while `len/size = 2`. -/
theorem chunk_text_steps_counterexample :
    ¬ ∃ C1 C2 : Nat, ∀ (t : List Char) (cs ov : Int), 0 < cs →
      chunkTextSteps t cs ov ≤ C1 * (t.length / cs.toNat) + C2 := by
  rintro ⟨C1, C2, h⟩
  have hn : 0 < 2 * C1 + C2 + 1 := by omega
  have hsteps := chunkTextSteps_replicate (2 * C1 + C2 + 1) hn
  have hb := h (List.replicate (2 * (2 * C1 + C2 + 1)) 'a')
    ((2 * C1 + C2 + 1 : Nat) : Int) (((2 * C1 + C2 + 1 : Nat) : Int) - 1) (by omega)
  rw [hsteps, List.length_replicate] at hb
  have htoNat : (((2 * C1 + C2 + 1 : Nat) : Int)).toNat = 2 * C1 + C2 + 1 := by omega
  rw [htoNat, Nat.mul_div_left 2 hn] at hb
  omega

/-- Claim C4 (amended): `chunk_text` always terminates — the loop value is
fuel-independent once the fuel exceeds the remaining length, and the
iteration count is at most `len(text)` (linear in the text length; the
`O(len/size)` bound of the claim fails when `overlap ≥ size - 1`, see the
counterexample); the overlap is clamped into `[0, size - 1]`; every
iteration strictly advances the window start; and `chunk_size ≤ 0` raises
`ValueError`. -/
theorem chunk_text_termination_spec :
    (∀ (t : List Char) (cs ov : Int), cs ≤ 0 →
        chunk_text t cs ov = Except.error ("chunk_size must be > 0".toList)) ∧
    (∀ (cs ov : Int), 0 < cs →
        0 ≤ (clampOverlap cs ov : Int) ∧ (clampOverlap cs ov : Int) ≤ cs - 1) ∧
    (∀ (t : List Char) (size ov start : Nat), start < nextStart t size ov start) ∧
    (∀ (t : List Char) (cs ov : Int), chunkTextSteps t cs ov ≤ t.length) ∧
    (∀ (t : List Char) (size ov f1 f2 start : Nat),
        t.length - start < f1 → t.length - start < f2 →
        chunkLoop t size ov f1 start = chunkLoop t size ov f2 start) := by
  refine ⟨?_, ?_, ?_, ?_, ?_⟩
  · intro t cs ov h
    rw [chunk_text, if_pos h]
  · intro cs ov h
    unfold clampOverlap
    omega
  · intro t size ov start
    exact nextStart_gt t size ov start
  · intro t cs ov
    unfold chunkTextSteps
    split
    · omega
    · split
      · omega
      · have := chunkLoopSteps_le t cs.toNat (clampOverlap cs ov) (t.length + 1) 0
        omega
  · intro t size ov f1 f2 start h1 h2
    exact chunkLoop_fuel_congr t size ov f1 f2 start h1 h2

/-- Witness for C4 at concrete inputs. -/
theorem chunk_text_termination_spec_witness :
    ((-3 : Int) ≤ 0 ∧
      chunk_text "abc".toList (-3) 1 = Except.error ("chunk_size must be > 0".toList)) ∧
    ((0 : Int) < 5 ∧ 0 ≤ (clampOverlap 5 99 : Int) ∧ (clampOverlap 5 99 : Int) ≤ 5 - 1) ∧
    0 < nextStart "ab".toList 1 0 0 ∧
    chunkTextSteps "abcd".toList 2 1 ≤ "abcd".toList.length ∧
    ("ab".toList.length - 0 < 3 ∧ "ab".toList.length - 0 < 5 ∧
      chunkLoop "ab".toList 1 0 3 0 = chunkLoop "ab".toList 1 0 5 0) :=
  ⟨⟨by decide, chunk_text_termination_spec.1 "abc".toList (-3) 1 (by decide)⟩,
   ⟨by decide, chunk_text_termination_spec.2.1 5 99 (by decide)⟩,
   chunk_text_termination_spec.2.2.1 "ab".toList 1 0 0,
   chunk_text_termination_spec.2.2.2.1 "abcd".toList 2 1,
   ⟨by decide, by decide,
    chunk_text_termination_spec.2.2.2.2 "ab".toList 1 0 3 5 0 (by decide) (by decide)⟩⟩

/-- A one-vector add with a matching width always succeeds, appending the
vector and returning the fresh id. -/
theorem textStoreAdd_ok (ix : FaissIndex) (v : List ℚ) (hv : v.length = ix.dim) :
    textStoreAdd ix ⟨v.length, [v]⟩ =
      Except.ok ({ ix with vecs := ix.vecs ++ [v] },
        List.range' ix.vecs.length 1) := by
  unfold textStoreAdd faissFlatAdd
  rw [if_neg (by simp [hv]), if_pos (by simp [hv])]
  rfl

/-- Under a healthy encoder (finite vectors of the index dimension on every
input) the chunked ingestion branch succeeds: it returns the memory id,
never touches `memory_items` or the error counters, adds one vector per
chunk, and appends exactly the chunk rows `i, i+1, …` in order. -/
theorem ingestChunks_success (cfg : IngestConfig) (memoryId : Nat) (source : List Char)
    (d : Nat) (henc : ∀ s, ∃ v, cfg.enc s = EmbedResult.ok v true ∧ v.length = d) :
    ∀ chunks st i, st.textIndex.dim = d →
      (ingestChunks cfg memoryId source st i chunks).2 = Int.ofNat memoryId ∧
      (ingestChunks cfg memoryId source st i chunks).1.items = st.items ∧
      (ingestChunks cfg memoryId source st i chunks).1.nextItemId = st.nextItemId ∧
      (ingestChunks cfg memoryId source st i chunks).1.errorCounts = st.errorCounts ∧
      (ingestChunks cfg memoryId source st i chunks).1.log = st.log ∧
      (ingestChunks cfg memoryId source st i chunks).1.textIndex.dim = d ∧
      (ingestChunks cfg memoryId source st i chunks).1.textIndex.vecs.length =
        st.textIndex.vecs.length + chunks.length ∧
      ∃ rows, (ingestChunks cfg memoryId source st i chunks).1.chunkRows =
          st.chunkRows ++ rows ∧
        rows.map (fun r => r.chunk_index) = List.range' i chunks.length := by
  intro chunks
  induction chunks with
  | nil =>
    intro st i hd
    refine ⟨rfl, rfl, rfl, rfl, rfl, hd, by simp [ingestChunks], [], by simp [ingestChunks], rfl⟩
  | cons c rest ih =>
    intro st i hd
    obtain ⟨c1, s1, e1⟩ := c
    obtain ⟨v, hv, hvd⟩ := henc c1
    have hadd := textStoreAdd_ok st.textIndex v (by rw [hvd, hd])
    rw [ingestChunks]
    simp only [hv, hadd]
    rw [if_neg (by decide)]
    have hnext := ih
      { st with
        encodeCalls := st.encodeCalls + 1
        textIndex := { st.textIndex with vecs := st.textIndex.vecs ++ [v] }
        chunkRows := st.chunkRows ++
          [{ id := st.nextChunkId, memory_item_id := memoryId, chunk_text := c1,
             chunk_index := i, start_pos := s1, end_pos := e1,
             vector_id := some ((List.range' st.textIndex.vecs.length 1).headD 0) }]
        nextChunkId := st.nextChunkId + 1 } (i + 1) (by exact hd)
    obtain ⟨h1, h2, h3, h4, h5, h6, h7, rows, h8, h9⟩ := hnext
    refine ⟨h1, h2, h3, h4, h5, h6, ?_, ?_⟩
    · rw [h7]
      simp [List.length_append]
      omega
    · refine ⟨({ id := st.nextChunkId, memory_item_id := memoryId, chunk_text := c1, chunk_index := i, start_pos := s1, end_pos := e1, vector_id := some ((List.range' st.textIndex.vecs.length 1).headD 0) } : ChunkRow) :: rows, ?_, ?_⟩
      · rw [h8]
        simp [List.append_assoc]
      · simp only [List.map_cons, h9, List.length_cons]
        rfl

/-! ## Claim C3 — chunk coverage -/

/-- A text of 1500 spaces followed by one letter: longer than the default
chunk size, and its first window is discarded as whitespace-only. -/
def wsText : List Char := List.replicate 1500 ' ' ++ ['a']

set_option maxRecDepth 200000 in
/-- Counterexample to C3 as stated: on `wsText` (1501 characters, longer
than the chunk size 1500) the default `chunk_text` returns the single
chunk `("a", 1350, 1501)`, whose span does not cover position 0 — the
first window `[0, 1500)` is all whitespace, is dropped by
`if clean_chunk:`, and its span is lost. -/
theorem chunk_coverage_counterexample :
    1500 < wsText.length ∧
    chunkTextDefault wsText = [(['a'], 1350, 1501)] ∧
    ¬ (∀ i, i < wsText.length →
        ∃ cse ∈ chunkTextDefault wsText, cse.2.1 ≤ i ∧ i < cse.2.2) := by
  have heval : chunkTextDefault wsText = [(['a'], 1350, 1501)] := by decide
  refine ⟨by decide, heval, ?_⟩
  intro h
  obtain ⟨cse, hm, h1, h2⟩ := h 0 (by decide)
  rw [heval] at hm
  simp only [List.mem_singleton] at hm
  subst hm
  exact absurd h1 (by decide)

/-- Claim C3 (amended): for every text strictly longer than the (positive)
chunk size, `chunk_text` succeeds and returns chunks that are the
stripped, non-empty slices of their recorded spans `[start, end)`, with
`end ≤ len(text)` and strictly increasing starts; every position of the
text is covered by some returned span **or holds a whitespace character**
(coverage can fail exactly on discarded all-whitespace windows, see the
counterexample); and the chunk rows persisted by `ingest_text` for one
parent carry `chunk_index = 0, 1, …, n-1` in order. -/
theorem chunk_coverage_spec :
    (∀ (t : List Char) (cs ov : Int), 0 < cs → cs.toNat < t.length →
      ∃ chunks, chunk_text t cs ov = Except.ok chunks ∧
        (∀ cse ∈ chunks, cse.1 = pyStrip (sliceList t cse.2.1 cse.2.2) ∧ cse.1 ≠ [] ∧
          cse.2.1 < cse.2.2 ∧ cse.2.2 ≤ t.length) ∧
        (∀ i, i < t.length →
          (∃ cse ∈ chunks, cse.2.1 ≤ i ∧ i < cse.2.2) ∨
          isSpaceChar (t.getD i ' ') = true) ∧
        List.Pairwise (fun a b => a.2.1 < b.2.1) chunks) ∧
    (∀ (cfg : IngestConfig) (st : StoreState) (text source : List Char)
        (md : Option MetaVal) (d : Nat),
      cfg.ready = true → st.textIndex.dim = d →
      (∀ s, ∃ v, cfg.enc s = EmbedResult.ok v true ∧ v.length = d) →
      st.items.find? (fun r => r.content_hash =
        some (cfg.hashFn (source ++ ['|'] ++ joinWords (splitWs (normalizeText text))))) = none →
      should_chunk (normalizeText text) = true →
      ((ingest_text cfg st text source md).1.chunkRows.drop st.chunkRows.length).map
        (fun r => r.chunk_index) =
        List.range (chunkTextDefault (normalizeText text)).length) := by
  constructor
  · intro t cs ov hcs hlen
    refine ⟨chunkLoop t cs.toNat (clampOverlap cs ov) (t.length + 1) 0,
      by rw [chunk_text, if_neg (by omega), if_neg (by omega)], ?_, ?_, ?_⟩
    · intro cse hcse
      have := (chunkLoop_invariant t cs.toNat (clampOverlap cs ov) (by omega)
        (t.length + 1) 0 (by omega)).1 cse hcse
      exact ⟨this.1, this.2.1, this.2.2.2⟩
    · intro i hi
      exact (chunkLoop_invariant t cs.toNat (clampOverlap cs ov) (by omega)
        (t.length + 1) 0 (by omega)).2.1 i (Nat.zero_le i) hi
    · exact (chunkLoop_invariant t cs.toNat (clampOverlap cs ov) (by omega)
        (t.length + 1) 0 (by omega)).2.2
  · intro cfg st text source md d hready hd henc hfind hchunk
    have hchunk' : 1500 < (normalizeText text).length := by
      simpa [should_chunk, CHUNK_SIZE_LONG] using hchunk
    have hne : ¬ (normalizeText text = []) := by
      intro h
      rw [h] at hchunk'
      simp at hchunk'
    have hok : chunk_text (normalizeText text) 1500 150 =
        Except.ok (chunkTextDefault (normalizeText text)) := by
      unfold chunkTextDefault
      rw [chunk_text, if_neg (by decide), if_neg (by omega)]
    have hres : ingest_text cfg st text source md =
        ingestChunks cfg st.nextItemId source
          { st with
            items := st.items ++
              [{ id := st.nextItemId, source := source, content := normalizeText text, metadata := md, created_at := cfg.now, vector_id := none, content_hash := some (cfg.hashFn (source ++ ['|'] ++ joinWords (splitWs (normalizeText text)))) }]
            nextItemId := st.nextItemId + 1 } 0
          (chunkTextDefault (normalizeText text)) := by
      rw [ingest_text]
      rw [if_neg (by rw [hready]; decide)]
      simp only [hne, if_neg, hfind, hchunk, if_pos, hok]
      rfl
    obtain ⟨hid, hitems, hnid, herr, hlog, hdim, hvecs, rows, hrows, hmap⟩ :=
      ingestChunks_success cfg st.nextItemId source d henc
        (chunkTextDefault (normalizeText text))
        { st with
          items := st.items ++
            [{ id := st.nextItemId, source := source, content := normalizeText text, metadata := md, created_at := cfg.now, vector_id := none, content_hash := some (cfg.hashFn (source ++ ['|'] ++ joinWords (splitWs (normalizeText text)))) }]
          nextItemId := st.nextItemId + 1 } 0 hd
    rw [hres, hrows]
    have hpre : ({ st with
        items := st.items ++
          [{ id := st.nextItemId, source := source, content := normalizeText text, metadata := md, created_at := cfg.now, vector_id := none, content_hash := some (cfg.hashFn (source ++ ['|'] ++ joinWords (splitWs (normalizeText text)))) }]
        nextItemId := st.nextItemId + 1 } : StoreState).chunkRows = st.chunkRows := rfl
    rw [hpre, List.drop_left, hmap, List.range_eq_range']

set_option maxRecDepth 200000 in
/-- Witness for amended C3: a 9-character text at chunk size 5, and an
ingest of 1501 `'b'`s through the chunked path of `ingest_text`. -/
theorem chunk_coverage_spec_witness :
    ((0 : Int) < 5 ∧ (5 : Int).toNat < "ab cd efg".toList.length ∧
      ∃ chunks, chunk_text "ab cd efg".toList 5 1 = Except.ok chunks ∧
        (∀ cse ∈ chunks, cse.1 = pyStrip (sliceList "ab cd efg".toList cse.2.1 cse.2.2) ∧
          cse.1 ≠ [] ∧ cse.2.1 < cse.2.2 ∧ cse.2.2 ≤ "ab cd efg".toList.length) ∧
        (∀ i, i < "ab cd efg".toList.length →
          (∃ cse ∈ chunks, cse.2.1 ≤ i ∧ i < cse.2.2) ∨
          isSpaceChar ("ab cd efg".toList.getD i ' ') = true) ∧
        List.Pairwise (fun a b => a.2.1 < b.2.1) chunks) ∧
    (should_chunk (normalizeText (List.replicate 1501 'b')) = true ∧
      ((ingest_text (IngestConfig.mk true id (fun _ => EmbedResult.ok [0, 0, 0, 0] true) [])
          (initState 4) (List.replicate 1501 'b') ['t'] none).1.chunkRows.drop
          (initState 4).chunkRows.length).map (fun r => r.chunk_index) =
        List.range (chunkTextDefault (normalizeText (List.replicate 1501 'b'))).length) := by
  constructor
  · exact ⟨by decide, by decide,
      chunk_coverage_spec.1 "ab cd efg".toList 5 1 (by decide) (by decide)⟩
  · refine ⟨by decide, ?_⟩
    exact chunk_coverage_spec.2
      (IngestConfig.mk true id (fun _ => EmbedResult.ok [0, 0, 0, 0] true) [])
      (initState 4) (List.replicate 1501 'b') ['t'] none 4 rfl rfl
      (fun s => ⟨[0, 0, 0, 0], rfl, rfl⟩) rfl (by decide)

/-! ## Ingestion lemmas (claims C1, C7, C9) -/

/-- `find?` skips a prefix in which nothing matches. -/
theorem find?_append_of_none {α} (p : α → Bool) (l1 l2 : List α)
    (h : l1.find? p = none) : (l1 ++ l2).find? p = l2.find? p := by
  rw [List.find?_append, h, Option.none_or]

/-- The vector-id backfill does not disturb the dedup lookup: it changes no
`content_hash` (and no `id`), so `find?` by hash finds the updated version
of the same row. -/
theorem updateMemoryItemVectorId_find?_hash (items : List MemoryRow)
    (iid vid : Nat) (h : List Char) :
    (updateMemoryItemVectorId items iid vid).find?
        (fun r => r.content_hash = some h) =
      (items.find? (fun r => r.content_hash = some h)).map
        (fun r => if r.id = iid then { r with vector_id := some vid } else r) := by
  have hch : ∀ r : MemoryRow,
      (if r.id = iid then { r with vector_id := some vid } else r).content_hash =
        r.content_hash := by
    intro r
    split <;> rfl
  induction items with
  | nil => rfl
  | cons r rest ih =>
    unfold updateMemoryItemVectorId at ih ⊢
    simp only [List.map_cons]
    by_cases hp : r.content_hash = some h
    · rw [List.find?_cons_of_pos _ (by simp only [decide_eq_true_eq]; split <;> simp [hp]),
        List.find?_cons_of_pos _ (by simp [hp])]
      rfl
    · rw [List.find?_cons_of_neg _ (by simp [hch r, hp]),
        List.find?_cons_of_neg _ (by simp [hp])]
      exact ih

/-- With embeddings ready, a non-empty normalized text and a dedup hit,
`ingest_text` returns the existing row's id and leaves the state alone. -/
theorem ingest_text_hit (cfg : IngestConfig) (st : StoreState)
    (text source : List Char) (md : Option MetaVal) (ex : MemoryRow)
    (hready : cfg.ready = true) (hne : normalizeText text ≠ [])
    (hfind : st.items.find? (fun r => r.content_hash =
      some (cfg.hashFn (source ++ ['|'] ++ joinWords (splitWs (normalizeText text))))) =
      some ex) :
    ingest_text cfg st text source md = (st, Int.ofNat ex.id) := by
  rw [ingest_text, if_neg (by rw [hready]; decide)]
  simp only [hne, if_neg, hfind]
  simp

/-- With embeddings ready and healthy, a non-empty normalized text and a
dedup miss, `ingest_text` inserts a row carrying the dedup hash under the
fresh id and returns that id; every stored content is either an old one or
the normalized text. -/
theorem ingest_text_inserts (cfg : IngestConfig) (st : StoreState)
    (text source : List Char) (md : Option MetaVal) (d : Nat)
    (hready : cfg.ready = true) (hd : st.textIndex.dim = d)
    (henc : ∀ s, ∃ v, cfg.enc s = EmbedResult.ok v true ∧ v.length = d)
    (hne : normalizeText text ≠ [])
    (hfind : st.items.find? (fun r => r.content_hash =
      some (cfg.hashFn (source ++ ['|'] ++ joinWords (splitWs (normalizeText text))))) =
      none) :
    (ingest_text cfg st text source md).2 = Int.ofNat st.nextItemId ∧
    (∃ row, (ingest_text cfg st text source md).1.items.find?
        (fun r => r.content_hash =
          some (cfg.hashFn (source ++ ['|'] ++ joinWords (splitWs (normalizeText text))))) =
        some row ∧
      row.id = st.nextItemId) ∧
    (∀ r ∈ (ingest_text cfg st text source md).1.items,
      (∃ r0 ∈ st.items, r.content = r0.content) ∨ r.content = normalizeText text) := by
  by_cases hc : should_chunk (normalizeText text) = true
  · have hchunk' : 1500 < (normalizeText text).length := by
      simpa [should_chunk, CHUNK_SIZE_LONG] using hc
    have hok : chunk_text (normalizeText text) 1500 150 =
        Except.ok (chunkTextDefault (normalizeText text)) := by
      unfold chunkTextDefault
      rw [chunk_text, if_neg (by decide), if_neg (by omega)]
    have hres : ingest_text cfg st text source md =
        ingestChunks cfg st.nextItemId source
          { st with items := st.items ++ [{ id := st.nextItemId, source := source, content := normalizeText text, metadata := md, created_at := cfg.now, vector_id := none, content_hash := some (cfg.hashFn (source ++ ['|'] ++ joinWords (splitWs (normalizeText text)))) }], nextItemId := st.nextItemId + 1 } 0
          (chunkTextDefault (normalizeText text)) := by
      rw [ingest_text, if_neg (by rw [hready]; decide)]
      simp only [hne, if_neg, hfind, hc, if_pos, hok]
      rfl
    obtain ⟨hid, hitems, hnid, herr, hlog, hdim, hvecs, rows, hrows, hmap⟩ :=
      ingestChunks_success cfg st.nextItemId source d henc
        (chunkTextDefault (normalizeText text))
        { st with items := st.items ++ [{ id := st.nextItemId, source := source, content := normalizeText text, metadata := md, created_at := cfg.now, vector_id := none, content_hash := some (cfg.hashFn (source ++ ['|'] ++ joinWords (splitWs (normalizeText text)))) }], nextItemId := st.nextItemId + 1 } 0 hd
    rw [hres]
    refine ⟨hid, ?_, ?_⟩
    · rw [hitems, find?_append_of_none _ st.items _ hfind,
        List.find?_cons_of_pos _ (by simp)]
      exact ⟨_, rfl, rfl⟩
    · intro r hr
      rw [hitems] at hr
      rcases List.mem_append.mp hr with h1 | h1
      · exact Or.inl ⟨r, h1, rfl⟩
      · simp only [List.mem_singleton] at h1
        subst h1
        exact Or.inr rfl
  · obtain ⟨v, hv, hvd⟩ := henc (normalizeText text)
    have hadd := textStoreAdd_ok st.textIndex v (by rw [hvd, hd])
    have hres : ingest_text cfg st text source md =
        ({ st with items := updateMemoryItemVectorId (st.items ++ [{ id := st.nextItemId, source := source, content := normalizeText text, metadata := md, created_at := cfg.now, vector_id := none, content_hash := some (cfg.hashFn (source ++ ['|'] ++ joinWords (splitWs (normalizeText text)))) }]) st.nextItemId ((List.range' st.textIndex.vecs.length 1).headD 0), nextItemId := st.nextItemId + 1, textIndex := { st.textIndex with vecs := st.textIndex.vecs ++ [v] }, encodeCalls := st.encodeCalls + 1 }, Int.ofNat st.nextItemId) := by
      rw [ingest_text, if_neg (by rw [hready]; decide)]
      simp only [hne, if_neg, hfind, hc, if_pos, hv, hadd]
      rw [if_neg (by decide)]
      rfl
    rw [hres]
    refine ⟨rfl, ?_, ?_⟩
    · rw [updateMemoryItemVectorId_find?_hash,
        find?_append_of_none _ st.items _ hfind, List.find?_cons_of_pos _ (by simp)]
      refine ⟨_, rfl, ?_⟩
      dsimp only
      rw [if_pos rfl]
    · intro r hr
      unfold updateMemoryItemVectorId at hr
      obtain ⟨r0, hr0, hfr⟩ := List.mem_map.mp hr
      have hcontent : r.content = r0.content := by
        rw [← hfr]
        split <;> rfl
      rcases List.mem_append.mp hr0 with h1 | h1
      · exact Or.inl ⟨r0, h1, hcontent⟩
      · simp only [List.mem_singleton] at h1
        subst h1
        exact Or.inr hcontent

/-- With embeddings ready, a ready manager returns `(st, -1)` on an input
whose normalized text is empty. -/
theorem ingest_text_of_empty (cfg : IngestConfig) (st : StoreState)
    (text source : List Char) (md : Option MetaVal)
    (hready : cfg.ready = true) (he : normalizeText text = []) :
    ingest_text cfg st text source md = (st, -1) := by
  rw [ingest_text, if_neg (by rw [hready]; decide)]
  simp [he]

/-- Core dedup property: a second ingestion whose input normalizes to the
same text as the first is answered from the dedup lookup — it returns the
same value as the first call and leaves the state of the first call
untouched (no row, no vector, no embedding call). -/
theorem ingest_text_dedup (cfg : IngestConfig) (st : StoreState)
    (textA textB source : List Char) (md1 md2 : Option MetaVal) (d : Nat)
    (hready : cfg.ready = true) (hd : st.textIndex.dim = d)
    (henc : ∀ s, ∃ v, cfg.enc s = EmbedResult.ok v true ∧ v.length = d)
    (hsame : normalizeText textA = normalizeText textB) :
    ingest_text cfg (ingest_text cfg st textA source md1).1 textB source md2 =
      ingest_text cfg st textA source md1 := by
  by_cases hv0 : normalizeText textA = []
  · have hv0B : normalizeText textB = [] := by rw [← hsame]; exact hv0
    rw [ingest_text_of_empty cfg st textA source md1 hready hv0]
    exact ingest_text_of_empty cfg st textB source md2 hready hv0B
  · have hv0B : normalizeText textB ≠ [] := by rw [← hsame]; exact hv0
    have hhash : cfg.hashFn (source ++ ['|'] ++ joinWords (splitWs (normalizeText textB))) =
        cfg.hashFn (source ++ ['|'] ++ joinWords (splitWs (normalizeText textA))) := by
      rw [hsame]
    cases hfe : st.items.find? (fun r => r.content_hash =
        some (cfg.hashFn (source ++ ['|'] ++ joinWords (splitWs (normalizeText textA))))) with
    | some ex =>
      rw [ingest_text_hit cfg st textA source md1 ex hready hv0 hfe]
      exact ingest_text_hit cfg st textB source md2 ex hready hv0B
        (by simp only [hhash]; exact hfe)
    | none =>
      obtain ⟨hid, ⟨row, hfrow, hrowid⟩, _⟩ :=
        ingest_text_inserts cfg st textA source md1 d hready hd henc hv0 hfe
      have hsecond := ingest_text_hit cfg (ingest_text cfg st textA source md1).1
        textB source md2 row hready hv0B (by simp only [hhash]; exact hfrow)
      rw [hsecond, hrowid, ← hid]

/-! ## Claim C1 — ingestion idempotence -/

/-- Claim C1: with embeddings available and a healthy encoder, re-ingesting
the same `(source, text)` pair returns the same memory-item id as the
first call, performs no new embedding, leaves the text index's vector
count unchanged — indeed the entire state of the first call unchanged
(dedup via `content_hash = sha256(source + "|" + normalized_text)`). -/
theorem ingest_idempotent_spec (cfg : IngestConfig) (st : StoreState)
    (text source : List Char) (md1 md2 : Option MetaVal) (d : Nat)
    (hready : cfg.ready = true) (hd : st.textIndex.dim = d)
    (henc : ∀ s, ∃ v, cfg.enc s = EmbedResult.ok v true ∧ v.length = d) :
    (ingest_text cfg (ingest_text cfg st text source md1).1 text source md2).2 =
      (ingest_text cfg st text source md1).2 ∧
    (ingest_text cfg (ingest_text cfg st text source md1).1 text source
        md2).1.textIndex.vecs.length =
      (ingest_text cfg st text source md1).1.textIndex.vecs.length ∧
    (ingest_text cfg (ingest_text cfg st text source md1).1 text source md2).1.encodeCalls =
      (ingest_text cfg st text source md1).1.encodeCalls ∧
    (ingest_text cfg (ingest_text cfg st text source md1).1 text source md2).1 =
      (ingest_text cfg st text source md1).1 := by
  have h := ingest_text_dedup cfg st text text source md1 md2 d hready hd henc rfl
  exact ⟨by rw [h], by rw [h], by rw [h], by rw [h]⟩

/-- Witness for C1: ingesting `"hello world"` twice from a fresh store
with a constant healthy 1-dimensional encoder. -/
theorem ingest_idempotent_spec_witness :
    ((IngestConfig.mk true id (fun _ => EmbedResult.ok [0] true) []).ready = true ∧
      (initState 1).textIndex.dim = 1) ∧
    (ingest_text (IngestConfig.mk true id (fun _ => EmbedResult.ok [0] true) [])
        (ingest_text (IngestConfig.mk true id (fun _ => EmbedResult.ok [0] true) [])
          (initState 1) "hello world".toList "test".toList none).1
        "hello world".toList "test".toList none).2 =
      (ingest_text (IngestConfig.mk true id (fun _ => EmbedResult.ok [0] true) [])
        (initState 1) "hello world".toList "test".toList none).2 ∧
    (ingest_text (IngestConfig.mk true id (fun _ => EmbedResult.ok [0] true) [])
        (ingest_text (IngestConfig.mk true id (fun _ => EmbedResult.ok [0] true) [])
          (initState 1) "hello world".toList "test".toList none).1
        "hello world".toList "test".toList none).1 =
      (ingest_text (IngestConfig.mk true id (fun _ => EmbedResult.ok [0] true) [])
        (initState 1) "hello world".toList "test".toList none).1 :=
  ⟨⟨rfl, rfl⟩,
   (ingest_idempotent_spec (IngestConfig.mk true id (fun _ => EmbedResult.ok [0] true) [])
      (initState 1) "hello world".toList "test".toList none none 1 rfl rfl
      (fun s => ⟨[0], rfl, rfl⟩)).1,
   (ingest_idempotent_spec (IngestConfig.mk true id (fun _ => EmbedResult.ok [0] true) [])
      (initState 1) "hello world".toList "test".toList none none 1 rfl rfl
      (fun s => ⟨[0], rfl, rfl⟩)).2.2.2⟩

/-- The chunked branch never touches the `memory_items` table, on success
or failure. -/
theorem ingestChunks_items_all (cfg : IngestConfig) (memoryId : Nat) (source : List Char) :
    ∀ chunks st i, (ingestChunks cfg memoryId source st i chunks).1.items = st.items := by
  intro chunks
  induction chunks with
  | nil => intro st i; rfl
  | cons c rest ih =>
    intro st i
    obtain ⟨c1, s1, e1⟩ := c
    rw [ingestChunks]
    dsimp only
    cases hv : cfg.enc c1 with
    | exn ty msg => rfl
    | ok v finite =>
      dsimp only
      by_cases hf : finite = false
      · rw [if_pos hf]
        rfl
      · rw [if_neg hf]
        cases hadd : textStoreAdd { st with encodeCalls := st.encodeCalls + 1 }.textIndex
            ⟨v.length, [v]⟩ with
        | error msg => rfl
        | ok pr =>
          obtain ⟨ix, vids⟩ := pr
          exact ih _ _

/-- Whatever happens inside `ingest_text`, every stored content is either
an old row's content or the normalized input text. -/
theorem ingest_text_items_content (cfg : IngestConfig) (st : StoreState)
    (text source : List Char) (md : Option MetaVal) :
    ∀ r ∈ (ingest_text cfg st text source md).1.items,
      (∃ r0 ∈ st.items, r.content = r0.content) ∨ r.content = normalizeText text := by
  have hold : ∀ r ∈ st.items,
      (∃ r0 ∈ st.items, r.content = r0.content) ∨ r.content = normalizeText text :=
    fun r hr => Or.inl ⟨r, hr, rfl⟩
  have happend : ∀ (row : MemoryRow), row.content = normalizeText text →
      ∀ r ∈ st.items ++ [row],
      (∃ r0 ∈ st.items, r.content = r0.content) ∨ r.content = normalizeText text := by
    intro row hrow r hr
    rcases List.mem_append.mp hr with h1 | h1
    · exact Or.inl ⟨r, h1, rfl⟩
    · simp only [List.mem_singleton] at h1
      subst h1
      exact Or.inr hrow
  rw [ingest_text]
  split
  · have hm : (markNotReady st).items = st.items := by
      unfold markNotReady
      split <;> rfl
    dsimp only
    rw [hm]
    exact hold
  · dsimp only
    split
    · exact hold
    · split
      · exact hold
      · split
        · split
          · exact happend _ rfl
          · rw [ingestChunks_items_all]
            exact happend _ rfl
        · split
          · exact happend _ rfl
          · split
            · exact happend _ rfl
            · split
              · exact happend _ rfl
              · intro r hr
                dsimp only at hr
                unfold updateMemoryItemVectorId at hr
                obtain ⟨r0, hr0, hfr⟩ := List.mem_map.mp hr
                have hcontent : r.content = r0.content := by
                  rw [← hfr]
                  split <;> rfl
                rcases List.mem_append.mp hr0 with h1 | h1
                · exact Or.inl ⟨r0, h1, hcontent⟩
                · simp only [List.mem_singleton] at h1
                  subst h1
                  exact Or.inr hcontent

/-! ## Claim C9 — normalization, truncation and dedup -/

/-- Equations of `joinWords`. -/
theorem joinWords_cons_cons (a b : List Char) (l : List (List Char)) :
    joinWords (a :: b :: l) = a ++ [' '] ++ joinWords (b :: l) := by
  unfold joinWords
  simp [List.intercalate, List.intersperse]

/-- A character of `" ".join(words)` is a space or comes from some word. -/
theorem mem_joinWords {c : Char} :
    ∀ {ws : List (List Char)}, c ∈ joinWords ws → c = ' ' ∨ ∃ w ∈ ws, c ∈ w := by
  intro ws
  induction ws with
  | nil => intro h; simp [joinWords, List.intercalate] at h
  | cons a rest ih =>
    cases rest with
    | nil =>
      intro h
      have : c ∈ a := by
        simpa [joinWords, List.intercalate, List.intersperse] using h
      exact Or.inr ⟨a, by simp, this⟩
    | cons b l =>
      intro h
      rw [joinWords_cons_cons] at h
      rcases List.mem_append.mp h with h1 | h1
      · rcases List.mem_append.mp h1 with h2 | h2
        · exact Or.inr ⟨a, by simp, h2⟩
        · simp only [List.mem_singleton] at h2
          exact Or.inl h2
      · rcases ih h1 with h2 | ⟨w, hw, hc⟩
        · exact Or.inl h2
        · exact Or.inr ⟨w, List.mem_cons_of_mem a hw, hc⟩

/-- Characters of `str.split()` tokens come from the input (plus the
accumulator, for the auxiliary function). -/
theorem splitWsAux_chars :
    ∀ (t acc : List Char) (w : List Char), w ∈ splitWsAux t acc →
      ∀ c ∈ w, c ∈ t ∨ c ∈ acc := by
  intro t
  induction t with
  | nil =>
    intro acc w hw c hc
    unfold splitWsAux at hw
    split at hw
    · simp at hw
    · simp only [List.mem_singleton] at hw
      subst hw
      exact Or.inr (List.mem_reverse.mp hc)
  | cons d rest ih =>
    intro acc w hw c hc
    unfold splitWsAux at hw
    split at hw
    · split at hw
      · rcases ih [] w hw c hc with h1 | h1
        · exact Or.inl (List.mem_cons_of_mem d h1)
        · simp at h1
      · rcases List.mem_cons.mp hw with h1 | h1
        · subst h1
          exact Or.inr (List.mem_reverse.mp hc)
        · rcases ih [] w h1 c hc with h2 | h2
          · exact Or.inl (List.mem_cons_of_mem d h2)
          · simp at h2
    · rcases ih (d :: acc) w hw c hc with h1 | h1
      · exact Or.inl (List.mem_cons_of_mem d h1)
      · rcases List.mem_cons.mp h1 with h2 | h2
        · rw [h2]
          exact Or.inl (List.mem_cons_self d rest)
        · exact Or.inr h2

/-- No control character survives `stripCtrlChars`. -/
theorem stripCtrlChars_no_ctrl (t : List Char) :
    ∀ c ∈ stripCtrlChars t, (c.toNat ≤ 31 || c.toNat = 127) = false := by
  intro c hc
  obtain ⟨c0, _, hfc⟩ := List.mem_map.mp hc
  by_cases h : (c0.toNat ≤ 31 || c0.toNat = 127) = true
  · rw [if_pos h] at hfc
    subst hfc
    decide
  · rw [if_neg h] at hfc
    subst hfc
    simpa using h

/-- Claim C9: `ingest_text` normalizes the input (whitespace collapsed,
control characters replaced) and truncates it to 2000 characters before
hashing and storing: the normalized text is at most 2000 characters and
carries no control character; two inputs under the same source whose
normalized forms agree on their first 2000 characters are deduplicated —
the second call returns the first call's id and changes nothing; and every
stored content stays within 2000 characters. -/
theorem normalize_truncate_dedup_spec :
    (∀ t : List Char, (normalizeText t).length ≤ 2000) ∧
    (∀ (t : List Char) (c : Char), c ∈ normalizeText t →
      (c.toNat ≤ 31 || c.toNat = 127) = false) ∧
    (∀ (cfg : IngestConfig) (st : StoreState) (a b source : List Char)
        (md1 md2 : Option MetaVal) (d : Nat),
      cfg.ready = true → st.textIndex.dim = d →
      (∀ s, ∃ v, cfg.enc s = EmbedResult.ok v true ∧ v.length = d) →
      (preNormalize a).take 2000 = (preNormalize b).take 2000 →
      ingest_text cfg (ingest_text cfg st a source md1).1 b source md2 =
        ingest_text cfg st a source md1) ∧
    (∀ (cfg : IngestConfig) (st : StoreState) (text source : List Char)
        (md : Option MetaVal),
      (∀ r ∈ st.items, r.content.length ≤ 2000) →
      ∀ r ∈ (ingest_text cfg st text source md).1.items, r.content.length ≤ 2000) := by
  have hlen : ∀ t : List Char, (normalizeText t).length ≤ 2000 := by
    intro t
    unfold normalizeText
    rw [List.length_take]
    omega
  refine ⟨hlen, ?_, ?_, ?_⟩
  · intro t c hc
    have hc1 : c ∈ preNormalize t := List.take_subset 2000 (preNormalize t) hc
    unfold preNormalize at hc1
    rcases mem_joinWords hc1 with h1 | ⟨w, hw, hcw⟩
    · rw [h1]
      decide
    · rcases splitWsAux_chars (stripCtrlChars t) [] w hw c hcw with h2 | h2
      · exact stripCtrlChars_no_ctrl t c h2
      · simp at h2
  · intro cfg st a b source md1 md2 d hready hd henc hagree
    have hsame : normalizeText a = normalizeText b := by
      unfold normalizeText
      exact hagree
    exact ingest_text_dedup cfg st a b source md1 md2 d hready hd henc hsame
  · intro cfg st text source md hbound r hr
    rcases ingest_text_items_content cfg st text source md r hr with ⟨r0, hr0, hc⟩ | hc
    · rw [hc]
      exact hbound r0 hr0
    · rw [hc]
      exact hlen text

/-- Witness for C9: two different raw inputs (`"a  b"` with a tab and
`" a b "`) that normalize identically are deduplicated to the same id. -/
theorem normalize_truncate_dedup_spec_witness :
    (normalizeText "a \t b".toList).length ≤ 2000 ∧
    ((preNormalize "a \t b".toList).take 2000 = (preNormalize " a b ".toList).take 2000 ∧
      ingest_text (IngestConfig.mk true id (fun _ => EmbedResult.ok [0] true) [])
        (ingest_text (IngestConfig.mk true id (fun _ => EmbedResult.ok [0] true) [])
          (initState 1) "a \t b".toList "src".toList none).1 " a b ".toList "src".toList none =
      ingest_text (IngestConfig.mk true id (fun _ => EmbedResult.ok [0] true) [])
        (initState 1) "a \t b".toList "src".toList none) ∧
    ((∀ r ∈ (initState 1).items, r.content.length ≤ 2000) ∧
      ∀ r ∈ (ingest_text (IngestConfig.mk true id (fun _ => EmbedResult.ok [0] true) [])
          (initState 1) "a \t b".toList "src".toList none).1.items,
        r.content.length ≤ 2000) :=
  ⟨normalize_truncate_dedup_spec.1 "a \t b".toList,
   ⟨by decide,
    normalize_truncate_dedup_spec.2.2.1 (IngestConfig.mk true id (fun _ => EmbedResult.ok [0] true) [])
      (initState 1) "a \t b".toList " a b ".toList "src".toList none none 1 rfl rfl
      (fun s => ⟨[0], rfl, rfl⟩) (by decide)⟩,
   ⟨by simp [initState],
    normalize_truncate_dedup_spec.2.2.2 (IngestConfig.mk true id (fun _ => EmbedResult.ok [0] true) [])
      (initState 1) "a \t b".toList "src".toList none (by simp [initState])⟩⟩

/-! ## Claim C7 — per-item error isolation and rate-limited reporting -/

/-- Setting a counter makes the subsequent lookup return it. -/
theorem lookupCount_setCount (m : List (List Char × Nat)) (k : List Char) (n : Nat) :
    lookupCount (setCount m k n) k = n := by
  induction m with
  | nil =>
    unfold setCount lookupCount
    rw [List.find?_cons_of_pos _ (by simp)]
  | cons kv rest ih =>
    unfold setCount
    by_cases hk : kv.1 = k
    · rw [if_pos hk]
      unfold lookupCount
      rw [List.find?_cons_of_pos _ (by simp)]
    · rw [if_neg hk]
      unfold lookupCount at ih ⊢
      rw [List.find?_cons_of_neg _ (by simp [hk])]
      exact ih

/-- The error recorder bumps exactly the key's counter. -/
theorem recordIngestError_count (st : StoreState) (source sig : List Char) :
    lookupCount (recordIngestError st source sig).errorCounts (source ++ [':'] ++ sig) =
      lookupCount st.errorCounts (source ++ [':'] ++ sig) + 1 := by
  unfold recordIngestError
  exact lookupCount_setCount st.errorCounts (source ++ [':'] ++ sig) _

/-- The error recorder prints full detail for the first three occurrences,
one suppression notice at the fourth, and nothing afterwards. -/
theorem recordIngestError_log (st : StoreState) (source sig : List Char) :
    (lookupCount st.errorCounts (source ++ [':'] ++ sig) + 1 ≤ 3 →
      (recordIngestError st source sig).log =
        st.log ++ [LogEntry.errorDetail source sig]) ∧
    (lookupCount st.errorCounts (source ++ [':'] ++ sig) + 1 = 4 →
      (recordIngestError st source sig).log = st.log ++ [LogEntry.errorSummary source]) ∧
    (5 ≤ lookupCount st.errorCounts (source ++ [':'] ++ sig) + 1 →
      (recordIngestError st source sig).log = st.log) := by
  refine ⟨?_, ?_, ?_⟩
  · intro h
    unfold recordIngestError
    dsimp only
    rw [if_pos h]
  · intro h
    unfold recordIngestError
    dsimp only
    rw [if_neg (by omega), if_pos h]
  · intro h
    unfold recordIngestError
    dsimp only
    rw [if_neg (by omega), if_neg (by omega)]

/-- Tokens of `str.split()` are non-empty and contain no whitespace. -/
theorem splitWsAux_tokens :
    ∀ (t acc : List Char), (∀ c ∈ acc, isSpaceChar c = false) →
      ∀ w ∈ splitWsAux t acc, w ≠ [] ∧ ∀ c ∈ w, isSpaceChar c = false := by
  intro t
  induction t with
  | nil =>
    intro acc hacc w hw
    unfold splitWsAux at hw
    split at hw
    · simp at hw
    · rename_i hne
      simp only [List.mem_singleton] at hw
      subst hw
      refine ⟨by simpa [List.isEmpty_iff] using hne, ?_⟩
      intro c hc
      exact hacc c (List.mem_reverse.mp hc)
  | cons d rest ih =>
    intro acc hacc w hw
    unfold splitWsAux at hw
    split at hw
    · split at hw
      · exact ih [] (by simp) w hw
      · rename_i hne
        rcases List.mem_cons.mp hw with h1 | h1
        · subst h1
          refine ⟨by simpa [List.isEmpty_iff] using hne, ?_⟩
          intro c hc
          exact hacc c (List.mem_reverse.mp hc)
        · exact ih [] (by simp) w h1
    · rename_i hd
      refine ih (d :: acc) ?_ w hw
      intro c hc
      rcases List.mem_cons.mp hc with h1 | h1
      · rw [h1]
        simpa using hd
      · exact hacc c h1

/-- The normalized text is empty or starts with a non-whitespace
character. -/
theorem preNormalize_head (t : List Char) :
    preNormalize t = [] ∨
      ∃ c tl, preNormalize t = c :: tl ∧ isSpaceChar c = false := by
  unfold preNormalize
  cases hws : splitWs (stripCtrlChars t) with
  | nil =>
    left
    simp [joinWords, List.intercalate]
  | cons w ws =>
    right
    have htok := splitWsAux_tokens (stripCtrlChars t) [] (by simp) w
      (by rw [← splitWs, hws]; exact List.mem_cons_self w ws)
    cases hw : w with
    | nil => exact absurd hw htok.1
    | cons c wtl =>
      have hc : isSpaceChar c = false := htok.2 c (by rw [hw]; exact List.mem_cons_self c wtl)
      cases ws with
      | nil =>
        refine ⟨c, wtl, ?_, hc⟩
        simp [joinWords, List.intercalate, List.intersperse, hw]
      | cons b l =>
        refine ⟨c, wtl ++ [' '] ++ joinWords (b :: l), ?_, hc⟩
        rw [joinWords_cons_cons]
        simp [hw]

/-- A long text that starts with a non-whitespace character produces at
least one chunk. -/
theorem chunkTextDefault_ne_nil (t1 : List Char) (hlen : 1500 < t1.length)
    (hhead : ∃ c tl, t1 = c :: tl ∧ isSpaceChar c = false) :
    chunkTextDefault t1 ≠ [] := by
  obtain ⟨c, tl, ht, hc⟩ := hhead
  have hok : chunkTextDefault t1 =
      chunkLoop t1 1500 (clampOverlap 1500 150) (t1.length + 1) 0 := by
    unfold chunkTextDefault
    rw [chunk_text, if_neg (by decide), if_neg (by omega)]
    rfl
  rw [hok, chunkLoop_succ t1 1500 (clampOverlap 1500 150) t1.length 0 (by omega)]
  have hE1 : 0 < windowEnd t1 1500 0 := windowEnd_gt t1 1500 0 (by omega) (by omega)
  have hkept : pyStrip (sliceList t1 0 (windowEnd t1 1500 0)) ≠ [] := by
    intro hnil
    have hall := pyStrip_eq_nil_iff.mp hnil
    have hcmem : c ∈ sliceList t1 0 (windowEnd t1 1500 0) := by
      unfold sliceList
      simp only [List.drop_zero, Nat.sub_zero]
      cases hE : windowEnd t1 1500 0 with
      | zero => omega
      | succ k =>
        rw [ht, List.take_succ_cons]
        exact List.mem_cons_self c _
    exact absurd (hall c hcmem) (by simp [hc])
  rw [if_neg hkept]
  simp

/-- Claim C7: when the embedding of an item fails — the model raises, or
it returns a vector with non-finite values so the `np.isfinite` guard
raises `ValueError` — `ingest_text` does not propagate the exception: it
returns `-1`, bumps the counter for the `source:type:message` key (the
failure's signature `encFailSig`), prints full detail for the first three
occurrences of that key, a single suppression notice at the fourth, and
nothing afterwards; and a batch always processes every item. -/
theorem ingest_error_isolated_spec (cfg : IngestConfig) (st : StoreState)
    (text source sig : List Char) (md : Option MetaVal)
    (hready : cfg.ready = true)
    (hne : normalizeText text ≠ [])
    (hfind : st.items.find? (fun r => r.content_hash =
      some (cfg.hashFn (source ++ ['|'] ++ joinWords (splitWs (normalizeText text))))) =
      none)
    (hfail : ∀ s, encFailSig (should_chunk (normalizeText text)) (cfg.enc s) = some sig) :
    ((ingest_text cfg st text source md).2 = -1 ∧
      lookupCount (ingest_text cfg st text source md).1.errorCounts
          (source ++ [':'] ++ sig) =
        lookupCount st.errorCounts (source ++ [':'] ++ sig) + 1 ∧
      (lookupCount st.errorCounts (source ++ [':'] ++ sig) + 1 ≤ 3 →
        (ingest_text cfg st text source md).1.log =
          st.log ++ [LogEntry.errorDetail source sig]) ∧
      (lookupCount st.errorCounts (source ++ [':'] ++ sig) + 1 = 4 →
        (ingest_text cfg st text source md).1.log =
          st.log ++ [LogEntry.errorSummary source]) ∧
      (5 ≤ lookupCount st.errorCounts (source ++ [':'] ++ sig) + 1 →
        (ingest_text cfg st text source md).1.log = st.log)) ∧
    (∀ (cfg2 : IngestConfig) (st2 : StoreState) (pairs : List (List Char × List Char)),
      (ingest_batch cfg2 st2 pairs).2.length = pairs.length) := by
  have hbatch : ∀ (cfg2 : IngestConfig) (pairs : List (List Char × List Char))
      (st2 : StoreState), (ingest_batch cfg2 st2 pairs).2.length = pairs.length := by
    intro cfg2 pairs
    induction pairs with
    | nil => intro st2; rfl
    | cons p rest ih =>
      intro st2
      obtain ⟨ptext, psource⟩ := p
      rw [ingest_batch]
      dsimp only
      rw [List.length_cons, ih]
      rfl
  have finish : ∀ ST : StoreState, ST.errorCounts = st.errorCounts → ST.log = st.log →
      ingest_text cfg st text source md =
        (recordIngestError ST source sig, -1) →
      (ingest_text cfg st text source md).2 = -1 ∧
      lookupCount (ingest_text cfg st text source md).1.errorCounts
          (source ++ [':'] ++ sig) =
        lookupCount st.errorCounts (source ++ [':'] ++ sig) + 1 ∧
      (lookupCount st.errorCounts (source ++ [':'] ++ sig) + 1 ≤ 3 →
        (ingest_text cfg st text source md).1.log =
          st.log ++ [LogEntry.errorDetail source sig]) ∧
      (lookupCount st.errorCounts (source ++ [':'] ++ sig) + 1 = 4 →
        (ingest_text cfg st text source md).1.log =
          st.log ++ [LogEntry.errorSummary source]) ∧
      (5 ≤ lookupCount st.errorCounts (source ++ [':'] ++ sig) + 1 →
        (ingest_text cfg st text source md).1.log = st.log) := by
    intro ST h1 h2 hres
    have hcount := recordIngestError_count ST source sig
    have hlog := recordIngestError_log ST source sig
    rw [h1, h2] at hlog
    rw [h1] at hcount
    rw [hres]
    exact ⟨rfl, hcount, hlog.1, hlog.2.1, hlog.2.2⟩
  refine ⟨?_, fun cfg2 st2 pairs => hbatch cfg2 pairs st2⟩
  by_cases hc : should_chunk (normalizeText text) = true
  · have hchunk1 : 1500 < (normalizeText text).length := by
      simpa [should_chunk, CHUNK_SIZE_LONG] using hc
    have hok : chunk_text (normalizeText text) 1500 150 =
        Except.ok (chunkTextDefault (normalizeText text)) := by
      unfold chunkTextDefault
      rw [chunk_text, if_neg (by decide), if_neg (by omega)]
    have hhead : ∃ c tl, normalizeText text = c :: tl ∧ isSpaceChar c = false := by
      rcases preNormalize_head text with h1 | ⟨c, tl, hpc, hcs⟩
      · refine absurd ?_ hne
        unfold normalizeText
        rw [h1]
        rfl
      · refine ⟨c, tl.take 1999, ?_, hcs⟩
        unfold normalizeText
        rw [hpc]
        rfl
    cases hch : chunkTextDefault (normalizeText text) with
    | nil => exact absurd hch (chunkTextDefault_ne_nil _ hchunk1 hhead)
    | cons c0 crest =>
      obtain ⟨c1, s1, e1⟩ := c0
      apply finish { st with items := st.items ++ [{ id := st.nextItemId, source := source, content := normalizeText text, metadata := md, created_at := cfg.now, vector_id := none, content_hash := some (cfg.hashFn (source ++ ['|'] ++ joinWords (splitWs (normalizeText text)))) }], nextItemId := st.nextItemId + 1, encodeCalls := st.encodeCalls + 1 } rfl rfl
      rw [ingest_text, if_neg (by rw [hready]; decide)]
      simp only [hne, if_neg, hfind, hc, if_pos, hok, hch]
      rw [ingestChunks]
      have hs := hfail c1
      rw [hc] at hs
      cases henc : cfg.enc c1 with
      | exn ty msg =>
        rw [henc] at hs
        simp only [encFailSig, Option.some_inj] at hs
        simp [henc, hs]
      | ok v finite =>
        rw [henc] at hs
        cases finite with
        | true => simp [encFailSig] at hs
        | false =>
          simp [encFailSig] at hs
          simp [henc, hs]
  · have hcf : should_chunk (normalizeText text) = false := by
      simpa using hc
    apply finish { st with items := st.items ++ [{ id := st.nextItemId, source := source, content := normalizeText text, metadata := md, created_at := cfg.now, vector_id := none, content_hash := some (cfg.hashFn (source ++ ['|'] ++ joinWords (splitWs (normalizeText text)))) }], nextItemId := st.nextItemId + 1, encodeCalls := st.encodeCalls + 1 } rfl rfl
    rw [ingest_text, if_neg (by rw [hready]; decide)]
    simp only [hne, if_neg, hfind, hc]
    have hs := hfail (normalizeText text)
    rw [hcf] at hs
    cases henc : cfg.enc (normalizeText text) with
    | exn ty msg =>
      rw [henc] at hs
      simp only [encFailSig, Option.some_inj] at hs
      simp [henc, hs]
    | ok v finite =>
      rw [henc] at hs
      cases finite with
      | true => simp [encFailSig] at hs
      | false =>
        simp [encFailSig] at hs
        simp [henc, hs]

/-- Environment for the C7 witness whose encoder always raises
`RuntimeError("model down")`. -/
def failCfgExn : IngestConfig :=
  IngestConfig.mk true id
    (fun _ => EmbedResult.exn "RuntimeError".toList "model down".toList) []

/-- Environment for the C7 witness whose encoder always returns a vector
with non-finite values (the `np.isfinite` guard then raises). -/
def failCfgNonFinite : IngestConfig :=
  IngestConfig.mk true id (fun _ => EmbedResult.ok [0] false) []

/-- Witness for C7, one instance per failure mode on a fresh store: with a
raising encoder and with a non-finite-output encoder the call returns
`-1`, the matching counter moves 0 → 1, and the first occurrence prints
full detail; a 2-item batch still processes both items. -/
theorem ingest_error_isolated_spec_witness :
    ((ingest_text failCfgExn (initState 1) "hello".toList "src".toList none).2 = -1 ∧
      lookupCount (ingest_text failCfgExn
            (initState 1) "hello".toList "src".toList none).1.errorCounts
          ("src".toList ++ [':'] ++ errSig "RuntimeError".toList "model down".toList) =
        lookupCount (initState 1).errorCounts
          ("src".toList ++ [':'] ++ errSig "RuntimeError".toList "model down".toList) + 1 ∧
      (ingest_text failCfgExn (initState 1) "hello".toList "src".toList none).1.log =
        (initState 1).log ++ [LogEntry.errorDetail "src".toList
          (errSig "RuntimeError".toList "model down".toList)]) ∧
    ((ingest_text failCfgNonFinite (initState 1) "hello".toList "src".toList none).2 = -1 ∧
      lookupCount (ingest_text failCfgNonFinite
            (initState 1) "hello".toList "src".toList none).1.errorCounts
          ("src".toList ++ [':'] ++ errSig "ValueError".toList nonFiniteTextMsg) =
        lookupCount (initState 1).errorCounts
          ("src".toList ++ [':'] ++ errSig "ValueError".toList nonFiniteTextMsg) + 1 ∧
      (ingest_text failCfgNonFinite (initState 1) "hello".toList "src".toList none).1.log =
        (initState 1).log ++ [LogEntry.errorDetail "src".toList
          (errSig "ValueError".toList nonFiniteTextMsg)]) ∧
    (ingest_batch failCfgExn (initState 1)
        [("one".toList, "src".toList), ("two".toList, "src".toList)]).2.length = 2 := by
  have hA := ingest_error_isolated_spec failCfgExn
    (initState 1) "hello".toList "src".toList
    (errSig "RuntimeError".toList "model down".toList)
    none rfl (by decide) rfl (fun s => rfl)
  have hB := ingest_error_isolated_spec failCfgNonFinite
    (initState 1) "hello".toList "src".toList
    (errSig "ValueError".toList nonFiniteTextMsg)
    none rfl (by decide) rfl (fun s => rfl)
  exact ⟨⟨hA.1.1, hA.1.2.1, hA.1.2.2.1 (by decide)⟩,
    ⟨hB.1.1, hB.1.2.1, hB.1.2.2.1 (by decide)⟩,
    hA.2 failCfgExn
      (initState 1) [("one".toList, "src".toList), ("two".toList, "src".toList)]⟩

/-! ## Claim C5 — visual search: floor and dedup-by-path -/

/-- The candidate built for a hit carries that hit's score. -/
theorem visualCandOf_score (rows : List VisualRow) (s : ℚ) (i : Int) :
    (visualCandOf rows s i).score = s := by
  unfold visualCandOf
  cases getVisualItemByVectorId rows i.toNat <;> rfl

/-- `find?` commutes with a map that does not disturb the predicate. -/
theorem find?_map_of_pred {α} (f : α → α) (p : α → Bool)
    (hp : ∀ x, p (f x) = p x) (l : List α) :
    (l.map f).find? p = (l.find? p).map f := by
  induction l with
  | nil => rfl
  | cons a rest ih =>
    simp only [List.map_cons]
    by_cases ha : p a = true
    · rw [List.find?_cons_of_pos _ (by rw [hp a]; exact ha),
        List.find?_cons_of_pos _ ha]
      rfl
    · rw [List.find?_cons_of_neg _ (by rw [hp a]; simpa using ha),
        List.find?_cons_of_neg _ (by simpa using ha)]
      exact ih

/-- The replacement function of the dedup loop keeps every key in place. -/
theorem visualReplace_fst (key : List Char) (cand : VisualCand) :
    ∀ kv : List Char × VisualCand,
      ((fun kv2 => if kv2.1 = key then (key, cand) else kv2) kv).1 = kv.1 := by
  intro kv
  dsimp only
  split
  · rename_i h
    rw [h]
  · rfl

/-- Every entry of one dedup step is an old entry or the candidate of the
processed (valid, above-floor) pair. -/
theorem visualStep_mem (rows : List VisualRow) (best : List (List Char × VisualCand))
    (p : ℚ × Int) :
    ∀ kv ∈ visualStep rows best p, kv ∈ best ∨
      (0 ≤ p.2 ∧ visualMinScore ≤ p.1 ∧
        kv = (visualPathKey rows p.2, visualCandOf rows p.1 p.2)) := by
  intro kv hkv
  unfold visualStep at hkv
  by_cases hvalid : 0 ≤ p.2
  case neg =>
    rw [if_neg hvalid] at hkv
    exact Or.inl hkv
  rw [if_pos hvalid] at hkv
  by_cases hfloor : p.1 < visualMinScore
  case pos =>
    rw [if_pos hfloor] at hkv
    exact Or.inl hkv
  rw [if_neg hfloor] at hkv
  dsimp only at hkv
  cases hfe : best.find? (fun kv => kv.1 = visualPathKey rows p.2) with
  | none =>
    rw [hfe] at hkv
    dsimp only at hkv
    rcases List.mem_append.mp hkv with h1 | h1
    · exact Or.inl h1
    · simp only [List.mem_singleton] at h1
      exact Or.inr ⟨hvalid, not_lt.mp hfloor, h1⟩
  | some kv0 =>
    rw [hfe] at hkv
    dsimp only at hkv
    by_cases hscore : kv0.2.score < p.1
    · rw [if_pos hscore] at hkv
      obtain ⟨kv2, hkv2, hf⟩ := List.mem_map.mp hkv
      by_cases hk : kv2.1 = visualPathKey rows p.2
      · rw [if_pos hk] at hf
        exact Or.inr ⟨hvalid, not_lt.mp hfloor, hf.symm⟩
      · rw [if_neg hk] at hf
        rw [← hf]
        exact Or.inl hkv2
    · rw [if_neg hscore] at hkv
      exact Or.inl hkv

/-- One dedup step preserves distinctness of keys. -/
theorem visualStep_pairwise (rows : List VisualRow)
    (best : List (List Char × VisualCand)) (p : ℚ × Int)
    (h : List.Pairwise (fun a b => a.1 ≠ b.1) best) :
    List.Pairwise (fun a b => a.1 ≠ b.1) (visualStep rows best p) := by
  unfold visualStep
  by_cases hvalid : 0 ≤ p.2
  case neg =>
    rw [if_neg hvalid]
    exact h
  rw [if_pos hvalid]
  by_cases hfloor : p.1 < visualMinScore
  case pos =>
    rw [if_pos hfloor]
    exact h
  rw [if_neg hfloor]
  dsimp only
  cases hfe : best.find? (fun kv => kv.1 = visualPathKey rows p.2) with
  | none =>
    dsimp only
    rw [List.pairwise_append]
    refine ⟨h, List.pairwise_singleton _ _, ?_⟩
    intro a ha b hb
    simp only [List.mem_singleton] at hb
    subst hb
    have := List.find?_eq_none.mp hfe a ha
    simpa using this
  | some kv0 =>
    dsimp only
    by_cases hscore : kv0.2.score < p.1
    · rw [if_pos hscore]
      exact List.Pairwise.map _ (fun a b hab => by
        rw [visualReplace_fst, visualReplace_fst]
        exact hab) h
    · rw [if_neg hscore]
      exact h

/-- After processing a valid above-floor pair its key is present with a
score at least that pair's. -/
theorem visualStep_find?_self (rows : List VisualRow)
    (best : List (List Char × VisualCand)) (p : ℚ × Int)
    (hvalid : 0 ≤ p.2) (hfloor : visualMinScore ≤ p.1) :
    ∃ kv, (visualStep rows best p).find?
        (fun kv => kv.1 = visualPathKey rows p.2) = some kv ∧
      p.1 ≤ kv.2.score := by
  unfold visualStep
  rw [if_pos hvalid, if_neg (not_lt.mpr hfloor)]
  dsimp only
  split
  · rename_i hfe
    refine ⟨(visualPathKey rows p.2, visualCandOf rows p.1 p.2), ?_, ?_⟩
    · rw [find?_append_of_none _ best _ hfe, List.find?_cons_of_pos _ (by simp)]
    · rw [visualCandOf_score]
  · rename_i kv0 hfe
    by_cases hscore : kv0.2.score < p.1
    · rw [if_pos hscore]
      refine ⟨(visualPathKey rows p.2, visualCandOf rows p.1 p.2), ?_, ?_⟩
      · rw [find?_map_of_pred _ _ (fun kv => by rw [visualReplace_fst]) best, hfe]
        have hk0 : kv0.1 = visualPathKey rows p.2 := by
          simpa using List.find?_some hfe
        simp [hk0]
      · rw [visualCandOf_score]
    · rw [if_neg hscore]
      exact ⟨kv0, hfe, not_lt.mp hscore⟩

/-- A dedup step never lowers the score stored under any key. -/
theorem visualStep_find?_mono (rows : List VisualRow)
    (best : List (List Char × VisualCand)) (p : ℚ × Int) (k : List Char)
    (kv : List Char × VisualCand)
    (h : best.find? (fun kv => kv.1 = k) = some kv) :
    ∃ kv2, (visualStep rows best p).find? (fun kv => kv.1 = k) = some kv2 ∧
      kv.2.score ≤ kv2.2.score := by
  have hsome : ∀ l2, (best ++ l2).find? (fun kv => kv.1 = k) = some kv := by
    intro l2
    rw [List.find?_append, h]
    rfl
  unfold visualStep
  by_cases hvalid : 0 ≤ p.2
  case neg =>
    rw [if_neg hvalid]
    exact ⟨kv, h, le_refl _⟩
  rw [if_pos hvalid]
  by_cases hfloor : p.1 < visualMinScore
  case pos =>
    rw [if_pos hfloor]
    exact ⟨kv, h, le_refl _⟩
  rw [if_neg hfloor]
  dsimp only
  split
  · exact ⟨kv, hsome _, le_refl _⟩
  · rename_i kv0 hfe
    by_cases hscore : kv0.2.score < p.1
    · rw [if_pos hscore]
      rw [find?_map_of_pred _ _ (fun kv => by rw [visualReplace_fst]) best, h]
      by_cases hk : kv.1 = visualPathKey rows p.2
      · have hkk : kv.1 = k := by simpa using List.find?_some h
        have hkeq : k = visualPathKey rows p.2 := by rw [← hkk, hk]
        have hkv0 : kv = kv0 := by
          have h2 := h
          rw [hkeq] at h2
          rw [h2] at hfe
          exact Option.some_inj.mp hfe
        refine ⟨(visualPathKey rows p.2, visualCandOf rows p.1 p.2), by simp [hk], ?_⟩
        rw [visualCandOf_score, hkv0]
        linarith [hscore]
      · exact ⟨kv, by simp [hk], le_refl _⟩
    · rw [if_neg hscore]
      exact ⟨kv, h, le_refl _⟩

/-- With distinct keys, membership determines the `find?` result. -/
theorem find?_of_mem_pairwise {m : List (List Char × VisualCand)}
    (hdist : List.Pairwise (fun a b => a.1 ≠ b.1) m)
    {kv : List Char × VisualCand} (hm : kv ∈ m) :
    m.find? (fun x => x.1 = kv.1) = some kv := by
  induction m with
  | nil => simp at hm
  | cons a rest ih =>
    rcases List.mem_cons.mp hm with h1 | h1
    · subst h1
      rw [List.find?_cons_of_pos _ (by simp)]
    · have hne : a.1 ≠ kv.1 := (List.pairwise_cons.mp hdist).1 kv h1
      rw [List.find?_cons_of_neg _ (by simpa using hne)]
      exact ih (List.pairwise_cons.mp hdist).2 h1

/-- The whole dedup loop keeps keys distinct. -/
theorem visualFold_pairwise (rows : List VisualRow) :
    ∀ (pairs : List (ℚ × Int)) (m : List (List Char × VisualCand)),
      List.Pairwise (fun a b => a.1 ≠ b.1) m →
      List.Pairwise (fun a b => a.1 ≠ b.1) (pairs.foldl (visualStep rows) m) := by
  intro pairs
  induction pairs with
  | nil => intro m h; exact h
  | cons p rest ih =>
    intro m h
    exact ih _ (visualStep_pairwise rows m p h)

/-- Every final entry is an initial entry or the candidate of some valid,
above-floor processed pair. -/
theorem visualFold_mem (rows : List VisualRow) :
    ∀ (pairs : List (ℚ × Int)) (m : List (List Char × VisualCand))
      (kv : List Char × VisualCand), kv ∈ pairs.foldl (visualStep rows) m →
      kv ∈ m ∨ ∃ p ∈ pairs, 0 ≤ p.2 ∧ visualMinScore ≤ p.1 ∧
        kv = (visualPathKey rows p.2, visualCandOf rows p.1 p.2) := by
  intro pairs
  induction pairs with
  | nil => intro m kv h; exact Or.inl h
  | cons p rest ih =>
    intro m kv h
    rcases ih _ kv h with h1 | ⟨q, hq, hgood⟩
    · rcases visualStep_mem rows m p kv h1 with h2 | h2
      · exact Or.inl h2
      · exact Or.inr ⟨p, List.mem_cons_self p rest, h2⟩
    · exact Or.inr ⟨q, List.mem_cons_of_mem p hq, hgood⟩

/-- The loop never lowers the score stored under any key. -/
theorem visualFold_find?_mono (rows : List VisualRow) :
    ∀ (pairs : List (ℚ × Int)) (m : List (List Char × VisualCand))
      (k : List Char) (kv : List Char × VisualCand),
      m.find? (fun x => x.1 = k) = some kv →
      ∃ kv2, (pairs.foldl (visualStep rows) m).find? (fun x => x.1 = k) = some kv2 ∧
        kv.2.score ≤ kv2.2.score := by
  intro pairs
  induction pairs with
  | nil => intro m k kv h; exact ⟨kv, h, le_refl _⟩
  | cons p rest ih =>
    intro m k kv h
    obtain ⟨kv1, h1, hs1⟩ := visualStep_find?_mono rows m p k kv h
    obtain ⟨kv2, h2, hs2⟩ := ih _ k kv1 h1
    exact ⟨kv2, h2, le_trans hs1 hs2⟩

/-- The stored candidate of a key scores at least every valid above-floor
pair mapping to it. -/
theorem visualFold_max (rows : List VisualRow) :
    ∀ (pairs : List (ℚ × Int)) (m : List (List Char × VisualCand)),
      List.Pairwise (fun a b => a.1 ≠ b.1) m →
      ∀ kv ∈ pairs.foldl (visualStep rows) m, ∀ p ∈ pairs,
        0 ≤ p.2 → visualMinScore ≤ p.1 →
        visualPathKey rows p.2 = kv.1 → p.1 ≤ kv.2.score := by
  intro pairs
  induction pairs with
  | nil =>
    intro m hd kv hkv p hp
    simp at hp
  | cons p0 rest ih =>
    intro m hd kv hkv p hp hv hf hkey
    rcases List.mem_cons.mp hp with h1 | h1
    · subst h1
      obtain ⟨kv1, h1f, hs1⟩ := visualStep_find?_self rows m p hv hf
      obtain ⟨kv2, h2f, hs2⟩ := visualFold_find?_mono rows rest (visualStep rows m p)
        (visualPathKey rows p.2) kv1 h1f
      have hdist2 := visualFold_pairwise rows rest (visualStep rows m p)
        (visualStep_pairwise rows m p hd)
      have hkvf := find?_of_mem_pairwise hdist2 hkv
      simp only [hkey] at h2f
      rw [hkvf] at h2f
      have : kv = kv2 := Option.some_inj.mp h2f
      rw [← this] at hs2
      linarith
    · exact ih (visualStep rows m p0) (visualStep_pairwise rows m p0 hd) kv hkv p h1 hv hf hkey

/-- Claim C5: visual search discards every hit below the fixed floor
`0.28`; the dedup map keeps at most one entry per path key; each kept
entry is the candidate of one of the (valid, above-floor) hits; and its
score is at least the score of every valid, above-floor hit resolving to
the same path key — i.e. per path only the highest-scoring vector
survives. -/
theorem visual_dedup_by_path_spec (rows : List VisualRow) (pairs : List (ℚ × Int)) :
    (∀ c ∈ visualSearchResults rows pairs, visualMinScore ≤ c.score) ∧
    List.Pairwise (fun a b => a.1 ≠ b.1) (visualBestByPath rows pairs) ∧
    (∀ kv ∈ visualBestByPath rows pairs, ∃ p ∈ pairs, 0 ≤ p.2 ∧ visualMinScore ≤ p.1 ∧
      kv.1 = visualPathKey rows p.2 ∧ kv.2 = visualCandOf rows p.1 p.2) ∧
    (∀ kv ∈ visualBestByPath rows pairs, ∀ p ∈ pairs, 0 ≤ p.2 → visualMinScore ≤ p.1 →
      visualPathKey rows p.2 = kv.1 → p.1 ≤ kv.2.score) := by
  have hdist := visualFold_pairwise rows pairs [] List.Pairwise.nil
  refine ⟨?_, hdist, ?_, ?_⟩
  · intro c hc
    obtain ⟨kv, hkv, hmap⟩ := List.mem_map.mp hc
    rcases visualFold_mem rows pairs [] kv hkv with h1 | ⟨p, hp, hv, hf, hkv2⟩
    · simp at h1
    · rw [← hmap, hkv2]
      show visualMinScore ≤ (visualCandOf rows p.1 p.2).score
      rw [visualCandOf_score]
      exact hf
  · intro kv hkv
    rcases visualFold_mem rows pairs [] kv hkv with h1 | ⟨p, hp, hv, hf, hkv2⟩
    · simp at h1
    · exact ⟨p, hp, hv, hf, by rw [hkv2], by rw [hkv2]⟩
  · intro kv hkv p hp hv hf hkey
    exact visualFold_max rows pairs [] List.Pairwise.nil kv hkv p hp hv hf hkey

/-- Concrete store for the C5 witness: two vectors (ids 0 and 1) both
resolving to path `"p"`. -/
def wRows : List VisualRow :=
  [VisualRow.mk 1 ['p'] none none [] (some 0) none,
   VisualRow.mk 2 ['p'] none none [] (some 1) none]

/-- Concrete FAISS hits for the C5 witness: scores 1/2 and 3/4 on those
two vectors, both above the floor. -/
def wPairs : List (ℚ × Int) :=
  [((1/2 : ℚ), (0 : Int)), ((3/4 : ℚ), (1 : Int))]

/-- First fold step on the witness data: the hit `(1/2, 0)` passes the
floor and is inserted under path key `"p"`. -/
theorem wRowsStepA : visualStep wRows [] ((1/2 : ℚ), (0 : Int)) =
    [(['p'], visualCandOf wRows (1/2) 0)] := by
  unfold visualStep
  rw [if_pos (show (0 : Int) ≤ (((1/2 : ℚ), (0 : Int)) : ℚ × Int).2 by decide),
      if_neg (show ¬ ((((1/2 : ℚ), (0 : Int)) : ℚ × Int).1 < visualMinScore) by
        norm_num [visualMinScore])]
  rfl

/-- Second fold step on the witness data: the hit `(3/4, 1)` resolves to
the same path key `"p"` and replaces the stored entry since `1/2 < 3/4`. -/
theorem wRowsStepB :
    visualStep wRows [(['p'], visualCandOf wRows (1/2) 0)] ((3/4 : ℚ), (1 : Int)) =
    [(['p'], visualCandOf wRows (3/4) 1)] := by
  unfold visualStep
  rw [if_pos (show (0 : Int) ≤ (((3/4 : ℚ), (1 : Int)) : ℚ × Int).2 by decide),
      if_neg (show ¬ ((((3/4 : ℚ), (1 : Int)) : ℚ × Int).1 < visualMinScore) by
        norm_num [visualMinScore])]
  show (if (visualCandOf wRows (1/2) 0).score < (((3/4 : ℚ), (1 : Int)) : ℚ × Int).1
        then [(['p'], visualCandOf wRows (1/2) 0)].map
          (fun kv2 => if kv2.1 = visualPathKey wRows (((3/4 : ℚ), (1 : Int)) : ℚ × Int).2
                      then (visualPathKey wRows (((3/4 : ℚ), (1 : Int)) : ℚ × Int).2,
                            visualCandOf wRows (((3/4 : ℚ), (1 : Int)) : ℚ × Int).1
                              (((3/4 : ℚ), (1 : Int)) : ℚ × Int).2)
                      else kv2)
        else [(['p'], visualCandOf wRows (1/2) 0)]) =
       [(['p'], visualCandOf wRows (3/4) 1)]
  rw [if_pos (show (visualCandOf wRows (1/2) 0).score < (((3/4 : ℚ), (1 : Int)) : ℚ × Int).1 by
        rw [visualCandOf_score]; norm_num)]
  rfl

/-- Witness for C5: on `wRows`/`wPairs` one entry survives for path `"p"`
and it scores at least both hits. -/
theorem visual_dedup_by_path_spec_witness :
    visualBestByPath wRows wPairs = [(['p'], visualCandOf wRows (3/4) 1)] ∧
    (((1/2 : ℚ), (0 : Int)) ∈ wPairs ∧ (0 : Int) ≤ 0 ∧ visualMinScore ≤ (1/2 : ℚ) ∧
      visualPathKey wRows 0 = ['p']) ∧
    (1/2 : ℚ) ≤ (visualCandOf wRows (3/4) 1).score ∧
    List.Pairwise (fun a b => a.1 ≠ b.1) (visualBestByPath wRows wPairs) := by
  have heval : visualBestByPath wRows wPairs = [(['p'], visualCandOf wRows (3/4) 1)] := by
    unfold visualBestByPath wPairs
    rw [List.foldl_cons, List.foldl_cons, List.foldl_nil, wRowsStepA, wRowsStepB]
  have hmem : (['p'], visualCandOf wRows (3/4) 1) ∈ visualBestByPath wRows wPairs := by
    rw [heval]
    exact List.mem_singleton.mpr rfl
  refine ⟨heval, ⟨List.mem_cons_self _ _, by decide,
      by norm_num [visualMinScore], rfl⟩, ?_, ?_⟩
  · exact (visual_dedup_by_path_spec wRows wPairs).2.2.2
      (['p'], visualCandOf wRows (3/4) 1) hmem ((1/2 : ℚ), (0 : Int))
      (List.mem_cons_self _ _) (by decide) (by norm_num [visualMinScore]) rfl
  · exact (visual_dedup_by_path_spec wRows wPairs).2.1
